import Mathlib

/-!
# Verification of the sticky-state transition engine (src/src/sticky.js)

This file gives a shallow embedding of the decorated `$state.transitionTo`
implementation of `src/src/sticky.js` and proves properties of it.

Modelling conventions:
* Internal states are keyed by their unique dotted name (`internalStates` maps
  names to state objects, and names are unique), so a mutable object slot of a
  state becomes a function `String → _` in the system state `Sys`.
* A JavaScript object reference (a `locals` object, a resolve map, ...) is
  modelled by an abstract identifier `Nat`; reference identity (`===`) is
  equality of identifiers.  A fresh blank `{}` object is `Option.none`.
* Lifecycle hook slots (`state.self.onEnter` / `state.self.onExit`) hold `Hook`
  values.  The wrapper functions installed by the surrogate builders are
  reified as `Hook` constructors recording exactly the data the corresponding
  JavaScript closure captures and uses in its body.
* The `$stickyState` service (`processTransition`, `stateInactivated`,
  `stateReactivated`, `getInactiveStates`, ...) lives in a different file of
  the repository that is not part of the sources here; its *output*
  (`stickyTransitions`) is therefore taken as an input of the embedding, and
  its registry effects are modelled from the spec where needed (each such
  definition carries a `Modelled from the spec:` comment).
* The transition is modelled without the `options.reload` feature (the claims
  under verification do not touch the reload branch, lines 294-317).
-/

set_option maxHeartbeats 1000000

namespace StickyModel

/-- Contents of a lifecycle hook slot (`state.self.onEnter` / `state.self.onExit`).
`orig id` is an arbitrary user-supplied hook function (identified by `id`);
the wrapper constructors correspond to the closures installed by the surrogate
builder functions of sticky.js.  Each wrapper constructor carries exactly the
data that the corresponding JavaScript closure references in its *body*:
`exitWrap`/`enterWrap`/`updateParamsWrap` pass the captured old hook to the
sticky-state service, while the closure installed by `stateInactivatedSurrogate`
(line 219) and the one installed by `stateReactivatedSurrogatePhase2`
(line 203) do not use the old hook in their bodies (it is captured only for
the restore step). -/
inductive Hook where
  | missing
  | orig (id : Nat)
  | inactivateWrap (st : String)
  | exitWrap (st : String) (old : Hook)
  | enterWrap (st : String) (old : Hook)
  | updateParamsWrap (st : String) (old : Hook)
  | reactivate2Wrap (st : String)
deriving DecidableEq, Repr

/-- Observable events of running a lifecycle hook: invoking an original user
hook, or calling one of the sticky-state service notification functions. -/
inductive Ev where
  | callHook (id : Nat)
  | evStateInactivated (st : String)
  | evStateExiting (st : String)
  | evStateEntering (st : String)
  | evStateReactivated (st : String)
deriving DecidableEq, Repr

/-- A surrogate state object, as produced by the `SurrogateState(type)` factory
(line 70) and specialised by the surrogate builders.  `resolve`/`views`/`locals`
are object references (`none` = a blank `{}` object fresh from the factory).
`selfShared` records whether the surrogate's `self` is the *same object* as the
real state's `self` (true for the phase-2 reactivation surrogate, line 198,
and for the inactivation surrogate, line 217), in which case hook slot reads
and writes go through the real state's slots; when false, `self` is a shallow
copy and `copiedOnEnter`/`copiedOnExit` are the snapshot taken at copy time. -/
structure SurrogateState where
  surrogateType : String
  selfName : String
  resolve : Option Nat
  views : Option Nat
  locals : Option Nat
  selfShared : Bool
  copiedOnEnter : Hook
  copiedOnExit : Hook
deriving DecidableEq, Repr

/-- An element of a (possibly substituted) `state.path` array: either a real
internal state (by its unique name) or a surrogate. -/
inductive PathElem where
  | real (name : String)
  | surrogate (s : SurrogateState)
deriving DecidableEq, Repr

/-- The state name an element refers to (`elem.self.name`). -/
def elemName : PathElem → String
  | .real n => n
  | .surrogate s => s.selfName

/-- Whether a path element is a real state (not a surrogate). -/
def isReal : PathElem → Bool
  | .real _ => true
  | .surrogate _ => false

/-- One entry of `restore.restoreFunctions` (line 179): each surrogate builder
registers a closure that writes a captured original hook reference back into a
state's hook slot. -/
inductive RestoreFn where
  | setOnEnter (st : String) (h : Hook)
  | setOnExit (st : String) (h : Hook)
deriving DecidableEq, Repr

/-- The `currentTransition` record pushed onto `pendingTransitions` (line 282).
Parameter objects are abstract identifiers. -/
structure TransRecord where
  toName : String
  fromName : String
  toParams : Nat
  fromParams : Nat
deriving DecidableEq, Repr

/-- The mutable state of one transition's `restore` closure (lines 151-182):
the saved original path arrays, the registered restore functions, the captured
`idx` (line 131), and `done`, which models the reassignment `restore = noop`
(line 166) — every caller invokes the closure through the reassigned variable
(or through `pendingRestore`, which the body nulls), so a second invocation
hits the no-op. -/
structure RestoreState where
  done : Bool
  savedToStatePath : Option (List PathElem)
  savedFromStatePath : Option (List PathElem)
  toName : String
  fromName : String
  restoreFunctions : List RestoreFn
  idx : Nat
deriving DecidableEq, Repr

/-- The whole mutable world visible to the decorated `transitionTo`:
per-state hook slots, per-state `path` arrays, per-state `locals` object
references and own view entries, the `__inactives` pseudo-state's locals
object, the inactive pool, the pending-transition list, the `pendingRestore`
slot, the ledger of restore closures (one per decorated call, addressed by
index), and the `status` field written on success. -/
structure Sys where
  onEnter : String → Hook
  onExit : String → Hook
  paths : String → List PathElem
  locals : String → Nat
  localsEntries : String → List (String × Nat)
  inactiveLocals : List (String × Nat)
  inactiveStates : List String
  pendingTransitions : List TransRecord
  pendingRestore : Option Nat
  restores : List RestoreState
  status : String → String

/-- Entered-state classification produced by `processTransition` for one
index of `toState.path` (the string values `"reactivate"`,
`"updateStateParams"`, `"enter"` compared at lines 355/367/372; `keep` stands
for any other value, for which the loop does nothing). -/
inductive EnterOp where
  | reactivate
  | updateStateParams
  | enter
  | keep
deriving DecidableEq, Repr

/-- Exited-state classification for one index of `fromState.path` (the string
values `"inactivate"` and `"exit"` compared at lines 382/385; `keep` stands
for any other value). -/
inductive ExitOp where
  | inactivate
  | exitState
  | keep
deriving DecidableEq, Repr

/-- The output of `$stickyState.processTransition` (line 325).  That function
lives outside these sources, so its result is an input of the embedding:
`keep` (the pivot count), the per-index enter and exit classifications, and
the list of states that will be inactive if the transition succeeds. -/
structure StickyTransitions where
  keep : Nat
  enter : List EnterOp
  exit : List ExitOp
  inactives : List String
deriving DecidableEq, Repr

/-- Input of one decorated `transitionTo` call: whether the target resolves
(`toStateSelf` and `internalStates[...]`, lines 267-269), the target and
current state names, abstract parameter objects, and the `processTransition`
oracle output. -/
structure TInput where
  toFound : Bool
  toName : String
  fromName : String
  toParams : Nat
  fromParams : Nat
  st : StickyTransitions

/-! ## Primitive operations on the system state -/

def setOnEnterH (n : String) (h : Hook) (s : Sys) : Sys :=
  { s with onEnter := Function.update s.onEnter n h }

def setOnExitH (n : String) (h : Hook) (s : Sys) : Sys :=
  { s with onExit := Function.update s.onExit n h }

def setPathS (n : String) (p : List PathElem) (s : Sys) : Sys :=
  { s with paths := Function.update s.paths n p }

def setStatusS (n : String) (v : String) (s : Sys) : Sys :=
  { s with status := Function.update s.status n v }

/-- `Array.prototype.splice(i, 1)`: remove the element at index `i` (removes
nothing when `i` is out of range). -/
def splice (l : List α) (i : Nat) : List α := l.take i ++ l.drop (i + 1)

/-- Read a property of a JavaScript-object-like association list. -/
def objGet (l : List (String × Nat)) (k : String) : Option Nat :=
  (l.find? (fun p => p.1 == k)).map (fun p => p.2)

/-- Write a property of a JavaScript-object-like association list
(overwrite in place if present, append otherwise). -/
def objSet (l : List (String × Nat)) (k : String) (v : Nat) : List (String × Nat) :=
  if l.any (fun p => p.1 == k) then
    l.map (fun p => if p.1 == k then (k, v) else p)
  else
    l ++ [(k, v)]

/-! ## Hook semantics -/

/-- Events emitted when the hook held in an `onExit` slot is invoked by the
engine.  The body of the closure installed by `stateInactivatedSurrogate`
(lines 219-221) calls only `_StickyState.stateInactivated(state)`; the body of
the closure installed by `stateExitedSurrogate` (lines 255-257) calls
`_StickyState.stateExiting(state, exited, oldOnExit)`.  Modelled from the
spec: `stateExiting` (outside these sources) runs the original hook and then
records the exit (spec section 4.3, `exit`). -/
def runExitHook : Hook → List Ev
  | .missing => []
  | .orig i => [.callHook i]
  | .inactivateWrap st => [.evStateInactivated st]
  | .exitWrap st old => runExitHook old ++ [.evStateExiting st]
  | .enterWrap _ _ => []
  | .updateParamsWrap _ _ => []
  | .reactivate2Wrap st => [.evStateReactivated st]

/-- Events emitted when the hook held in an `onEnter` slot is invoked.
Modelled from the spec: `stateEntering` (outside these sources) runs the
original hook and then notifies the registry of the new activation (spec
section 4.3, `enter` / `updateStateParams`); the phase-2 reactivation wrapper
(lines 203-208) calls only `_StickyState.stateReactivated(state)` after
re-attaching the retained locals. -/
def runEnterHook : Hook → List Ev
  | .missing => []
  | .orig i => [.callHook i]
  | .enterWrap st old => runEnterHook old ++ [.evStateEntering st]
  | .updateParamsWrap st old => runEnterHook old ++ [.evStateEntering st]
  | .reactivate2Wrap st => [.evStateReactivated st]
  | .inactivateWrap _ => []
  | .exitWrap _ _ => []

/-- Behaviour of the phase-2 reactivation surrogate's `onEnter` body
(lines 203-208): re-set `surrogate.locals` to the already loaded
`state.locals` (returned as the first component: the locals reference that
ends up attached), then call `_StickyState.stateReactivated(state)`.
Modelled from the spec: `stateReactivated` (outside these sources) removes
the node from the inactive pool (spec section 4.3, `reactivate`). -/
def runReactivate2Enter (st : String) (s : Sys) : Nat × Sys :=
  (s.locals st, { s with inactiveStates := s.inactiveStates.filter (fun n => n != st) })

/-- Modelled from the spec: `stateInactivated` (outside these sources) moves
the node into the inactive pool (spec section 4.3, `inactivate`). -/
def stateInactivatedEffect (st : String) (s : Sys) : Sys :=
  { s with inactiveStates := s.inactiveStates ++ [st] }

/-! ## Surrogate builders (lines 191-263) -/

/-- Mirrors the `SurrogateState(type)` factory (lines 70-82): blank resolve
map, blank views map, a locals object holding only `globals`, blank `self`. -/
def mkSurrogateState (ty : String) : SurrogateState :=
  { surrogateType := ty
    selfName := ""
    resolve := none
    views := none
    locals := none
    selfShared := false
    copiedOnEnter := .missing
    copiedOnExit := .missing }

/-- Mirrors `stateReactivatedSurrogatePhase1(state)` (lines 191-195): a blank
surrogate whose `locals` is the state's locals object (same reference) and
whose `self` is a shallow copy of the state's `self` (so the hook slots are
snapshots, not shared). -/
def stateReactivatedSurrogatePhase1 (nm : String) (s : Sys) : SurrogateState :=
  { mkSurrogateState "reactivate_phase1" with
      selfName := nm
      locals := some (s.locals nm)
      copiedOnEnter := s.onEnter nm
      copiedOnExit := s.onExit nm }

/-- Mirrors `stateReactivatedSurrogatePhase2(state)` (lines 197-213):
`angular.extend(new SurrogateState(...), state)` copies the state's own
properties (in particular `self` becomes the *same object* as the state's
`self`, and `locals` the state's locals reference); then `resolve` and
`views` are deliberately re-blanked (lines 200, 202), the old `onEnter` is
captured, the wrapper is installed on the shared `self` (thus on the real
state's slot), and a restore function for the old hook is registered.
Returns (surrogate, updated system, registered restore function). -/
def stateReactivatedSurrogatePhase2 (nm : String) (s : Sys) :
    SurrogateState × Sys × RestoreFn :=
  ({ surrogateType := "reactivate_phase2"
     selfName := nm
     resolve := none
     views := none
     locals := some (s.locals nm)
     selfShared := true
     copiedOnEnter := .missing
     copiedOnExit := .missing },
   setOnEnterH nm (.reactivate2Wrap nm) s,
   .setOnEnter nm (s.onEnter nm))

/-- Mirrors `stateInactivatedSurrogate(state)` (lines 215-226): a blank
surrogate whose `self` is the real state's `self` (shared); the old `onExit`
is captured, the wrapper (whose body only calls
`_StickyState.stateInactivated(state)`) is installed on the shared slot, and
a restore function for the old hook is registered. -/
def stateInactivatedSurrogate (nm : String) (s : Sys) :
    SurrogateState × Sys × RestoreFn :=
  ({ mkSurrogateState "inactivate" with selfName := nm, selfShared := true },
   setOnExitH nm (.inactivateWrap nm) s,
   .setOnExit nm (s.onExit nm))

/-- Mirrors `stateEnteredSurrogate(state, toParams)` (lines 228-238): wraps
the real state's `onEnter` in place and registers a restore function; the
"surrogate" pushed onto the path is the real state itself. -/
def stateEnteredSurrogate (nm : String) (s : Sys) : Sys × RestoreFn :=
  (setOnEnterH nm (.enterWrap nm (s.onEnter nm)) s, .setOnEnter nm (s.onEnter nm))

/-- Mirrors `stateUpdateParamsSurrogate(state, toParams)` (lines 241-251):
like `stateEnteredSurrogate` but with the params-updating wrapper. -/
def stateUpdateParamsSurrogate (nm : String) (s : Sys) : Sys × RestoreFn :=
  (setOnEnterH nm (.updateParamsWrap nm (s.onEnter nm)) s, .setOnEnter nm (s.onEnter nm))

/-- Mirrors `stateExitedSurrogate(state)` (lines 253-263): wraps the real
state's `onExit` in place and registers a restore function; the element
pushed onto the path is the real state itself. -/
def stateExitedSurrogate (nm : String) (s : Sys) : Sys × RestoreFn :=
  (setOnExitH nm (.exitWrap nm (s.onExit nm)) s, .setOnExit nm (s.onExit nm))

/-! ## The enter / exit classification loops (lines 352-397) -/

/-- Accumulator of the enter-classification loop (lines 352-376): the
substitute to- and from-paths under construction, the `reactivated` list of
phase-2 surrogates, `terminalReactivatedState` (by name; names are unique so
name equality is object identity), the system state, and the restore
functions registered so far. -/
structure EnterAcc where
  toP : List PathElem
  fromP : List PathElem
  reacts : List SurrogateState
  terminal : Option String
  sys : Sys
  rfns : List RestoreFn

/-- One iteration of the enter-classification loop (lines 352-376). -/
def enterStep (a : EnterAcc) : EnterOp × PathElem → EnterAcc
  | (.reactivate, e) =>
    let nm := elemName e
    let ph1 := stateReactivatedSurrogatePhase1 nm a.sys
    let r2 := stateReactivatedSurrogatePhase2 nm a.sys
    { toP := a.toP ++ [PathElem.surrogate ph1]
      fromP := a.fromP ++ [PathElem.surrogate ph1]
      reacts := a.reacts ++ [r2.1]
      terminal := some nm
      sys := r2.2.1
      rfns := a.rfns ++ [r2.2.2] }
  | (.updateStateParams, e) =>
    let nm := elemName e
    let u := stateUpdateParamsSurrogate nm a.sys
    { a with toP := a.toP ++ [e], terminal := some nm, sys := u.1, rfns := a.rfns ++ [u.2] }
  | (.enter, e) =>
    let nm := elemName e
    let u := stateEnteredSurrogate nm a.sys
    { a with toP := a.toP ++ [e], sys := u.1, rfns := a.rfns ++ [u.2] }
  | (.keep, _) => a

/-- The enter-classification loop. -/
def enterLoop : List (EnterOp × PathElem) → EnterAcc → EnterAcc
  | [], a => a
  | x :: xs, a => enterLoop xs (enterStep a x)

/-- Accumulator of the exit-classification loop (lines 380-389) and of the
orphan append (lines 412-415). -/
structure ExitAcc where
  fromP : List PathElem
  exited : List String
  sys : Sys
  rfns : List RestoreFn

/-- One iteration of the exit-classification loop (lines 380-389). -/
def exitStep (a : ExitAcc) : ExitOp × PathElem → ExitAcc
  | (.inactivate, e) =>
    let nm := elemName e
    let u := stateInactivatedSurrogate nm a.sys
    { fromP := a.fromP ++ [PathElem.surrogate u.1]
      exited := a.exited ++ [nm]
      sys := u.2.1
      rfns := a.rfns ++ [u.2.2] }
  | (.exitState, e) =>
    let nm := elemName e
    let u := stateExitedSurrogate nm a.sys
    { fromP := a.fromP ++ [e]
      exited := a.exited ++ [nm]
      sys := u.1
      rfns := a.rfns ++ [u.2] }
  | (.keep, _) => a

/-- The exit-classification loop. -/
def exitLoop : List (ExitOp × PathElem) → ExitAcc → ExitAcc
  | [], a => a
  | x :: xs, a => exitLoop xs (exitStep a x)

/-- The orphan append (line 413): `map(inactiveOrphans, stateExitedSurrogate)`
concatenated onto the substitute from-path (the exited accumulator is
extended separately, line 416). -/
def orphanLoop : List String → ExitAcc → ExitAcc
  | [], a => a
  | nm :: rest, a =>
    let u := stateExitedSurrogate nm a.sys
    orphanLoop rest { a with fromP := a.fromP ++ [PathElem.real nm], sys := u.1, rfns := a.rfns ++ [u.2] }

/-! ## Inactive-locals refresh (lines 333-348) -/

/-- `name.indexOf("@") != -1` (lines 335 and 344): whether a key contains
the character `'@'`. -/
def hasAt (s : String) : Bool := s.data.any (fun c => c == '@')

/-- Lines 334-336: delete every key of `inactivePseudoState.locals` that
contains `"@"`. -/
def stripViewKeys (l : List (String × Nat)) : List (String × Nat) :=
  l.filter (fun p => !(hasAt p.1))

/-- Lines 343-347: copy every *own* entry whose key contains `"@"` from one
inactive state's locals onto the accumulator. -/
def addOwnViewLocals (entries : List (String × Nat)) (acc : List (String × Nat)) :
    List (String × Nat) :=
  entries.foldl (fun acc kv => if hasAt kv.1 then objSet acc kv.1 kv.2 else acc) acc

/-- Lines 333-348: clear the view entries of `inactivePseudoState.locals` and
repopulate them from the own view entries of every state that will be
inactive once the transition succeeds. -/
def refreshInactiveLocals (s : Sys) (inactives : List String) : List (String × Nat) :=
  inactives.foldl (fun acc nm => addOwnViewLocals (s.localsEntries nm) acc)
    (stripViewKeys s.inactiveLocals)

/-- The repopulation step alone, starting from an empty object (used to state
that the refreshed view entries do not depend on the previous contents). -/
def populateInactiveViews (s : Sys) (inactives : List String) : List (String × Nat) :=
  inactives.foldl (fun acc nm => addOwnViewLocals (s.localsEntries nm) acc) []

/-! ## Orphaned inactive descendants (lines 399-417) -/

/-- `name.indexOf(prefix) === 0` (line 406): code-unit prefix test. -/
def isPrefixB : List Char → List Char → Bool
  | [], _ => true
  | _ :: _, [] => false
  | c :: cs, d :: ds => c == d && isPrefixB cs ds

/-- Whether the string `p` is a prefix of the string `s`. -/
def strStartsWith (p s : String) : Bool := isPrefixB p.data s.data

/-- JavaScript's default `sort()` comparison on the string conversions of the
array elements: code-unit lexicographic order.  `strLt x y` is true when `x`
compares strictly below `y`. -/
def strLt : List Char → List Char → Bool
  | _, [] => false
  | [], _ :: _ => true
  | c :: cs, d :: ds => Nat.blt c.toNat d.toNat || (c == d && strLt cs ds)

/-- Non-strict code-unit comparison of two strings. -/
def strLeB (a b : String) : Bool := a == b || strLt a.data b.data

/-- Insertion into an ascending run, used to model `Array.prototype.sort()`. -/
def insertAscB (x : String) : List String → List String
  | [] => [x]
  | y :: ys => if strLeB x y then x :: y :: ys else y :: insertAscB x ys

/-- A sort under the code-unit comparison (the result of
`Array.prototype.sort()` with no comparator: ascending string order). -/
def sortAscB : List String → List String
  | [] => []
  | x :: xs => insertAscB x (sortAscB xs)

/-- Lines 402-411: the inactive states whose dotted name starts with the
target's name followed by `"."`, run through `Array.prototype.sort()` and
`reverse()`.  Modelled from the spec: `getInactiveStates` (outside these
sources) returns the inactive pool, and the default `sort()` key — the string
conversion of a state object, which is determined by the external engine — is
taken to be the state's dotted name (spec sections 4.2 step 4 and 9 describe
the source as a plain name sort), giving name-descending order. -/
def orphanNames (toName : String) (inact : List String) : List String :=
  (sortAscB (inact.filter (fun nm => strStartsWith (toName ++ ".") nm))).reverse

/-- Modelled from the spec: the external engine executes exit hooks for
from-path elements beyond the pivot in leaf-to-root order, i.e. starting from
the last element of the path array (spec section 6). -/
def engineExitOrder (fromPath : List PathElem) (keep : Nat) : List PathElem :=
  (fromPath.drop keep).reverse

/-! ## The substitute-path construction (lines 319-421) -/

/-- Everything the decorated transition builds for the engine. -/
structure BuildOut where
  toP : List PathElem
  fromP : List PathElem
  exited : List String
  sys : Sys
  rfns : List RestoreFn

/-- `terminalReactivatedState` after the enter loop, as a pure function of
the classification list (assigned at lines 366 and 371). -/
def terminalOf : List (EnterOp × PathElem) → Option String → Option String
  | [], t => t
  | (op, e) :: rest, t =>
    terminalOf rest (if op = .reactivate ∨ op = .updateStateParams then some (elemName e) else t)

/-- The names wrapped on the `onEnter` side by the enter loop (every
non-`keep` classification wraps its state's `onEnter` exactly once). -/
def enterTargets (l : List (EnterOp × PathElem)) : List String :=
  l.filterMap (fun pr => if pr.1 = .keep then none else some (elemName pr.2))

/-- The names wrapped on the `onExit` side by the exit loop. -/
def exitTargets (l : List (ExitOp × PathElem)) : List String :=
  l.filterMap (fun pr => if pr.1 = .keep then none else some (elemName pr.2))

/-- The names pushed into the exited accumulator by the exit loop
(both the `inactivate` and the `exit` branches push, lines 384 and 387). -/
def exitNames (l : List (ExitOp × PathElem)) : List String :=
  l.filterMap (fun pr => if pr.1 = .keep then none else some (elemName pr.2))

/-- Lines 330-376: the kept-prefix slices, the inactive-locals refresh, and
the enter-classification loop. -/
def buildEnterAcc (st : StickyTransitions) (toName fromName : String) (s0 : Sys) : EnterAcc :=
  enterLoop (st.enter.zip (s0.paths toName))
    { toP := (s0.paths toName).take st.keep
      fromP := (s0.paths fromName).take st.keep
      reacts := []
      terminal := none
      sys := { s0 with inactiveLocals := refreshInactiveLocals s0 st.inactives }
      rfns := [] }

/-- Lines 378-389: the exit-classification loop, run after the enter loop. -/
def buildExitAcc (st : StickyTransitions) (toName fromName : String) (s0 : Sys) : ExitAcc :=
  exitLoop (st.exit.zip (s0.paths fromName))
    { fromP := (buildEnterAcc st toName fromName s0).fromP
      exited := []
      sys := (buildEnterAcc st toName fromName s0).sys
      rfns := (buildEnterAcc st toName fromName s0).rfns }

/-- The surrogate to- and from-path construction of the decorated transition
(lines 330-417): slice the kept prefixes, refresh the inactive pseudo-state's
locals, run the enter- and exit-classification loops, append the phase-2
reactivation surrogates to the to-path, and, when the transition target is the
terminal reactivated state, append exit surrogates for its orphaned inactive
descendants. -/
def buildSurrogates (st : StickyTransitions) (toName fromName : String) (s0 : Sys) : BuildOut :=
  let ea := buildEnterAcc st toName fromName s0
  let xa := buildExitAcc st toName fromName s0
  let toP2 := ea.toP ++ ea.reacts.map PathElem.surrogate
  if ea.terminal = some toName then
    let orph := orphanNames toName xa.sys.inactiveStates
    let oa := orphanLoop orph xa
    { toP := toP2, fromP := oa.fromP, exited := oa.exited ++ orph, sys := oa.sys, rfns := oa.rfns }
  else
    { toP := toP2, fromP := xa.fromP, exited := xa.exited, sys := xa.sys, rfns := xa.rfns }

/-! ## The restore closure and the decorated transitionTo (lines 124-454) -/

/-- Apply one registered restore function (write a captured original hook
reference back into a state's hook slot). -/
def runRestoreFn (f : RestoreFn) (s : Sys) : Sys :=
  match f with
  | .setOnEnter n h => setOnEnterH n h s
  | .setOnExit n h => setOnExitH n h s

/-- `angular.forEach(restore.restoreFunctions, ...)` (lines 162-164): apply
the registered restore functions in registration order. -/
def runRestoreFns (fns : List RestoreFn) (s : Sys) : Sys :=
  match fns with
  | [] => s
  | f :: fs => runRestoreFns fs (runRestoreFn f s)

/-- Lines 152-160 of the restore closure: put the saved original path arrays
back (`toState.path = savedToStatePath`, then `fromState.path =
savedFromStatePath`), skipping a slot whose saved value is null. -/
def restorePaths (r : RestoreState) (s : Sys) : Sys :=
  let s1 := match r.savedToStatePath with
    | some p => setPathS r.toName p s
    | none => s
  match r.savedFromStatePath with
  | some p => setPathS r.fromName p s1
  | none => s1

/-- Invoke the restore closure with handle `rid` (lines 151-173): if the
closure was already run (`restore = noop`, line 166) this is a no-op;
otherwise restore the saved to- and from-path arrays, run the registered
restore functions, latch, null `pendingRestore`, and splice this transition
out of `pendingTransitions` at the captured `idx`. -/
def runRestoreById (rid : Nat) (s : Sys) : Sys :=
  match s.restores[rid]? with
  | none => s
  | some r =>
    if r.done then s
    else
      let s3 := runRestoreFns r.restoreFunctions (restorePaths r s)
      { s3 with
          restores := s3.restores.set rid
            { r with done := true, savedToStatePath := none, savedFromStatePath := none }
          pendingRestore := none
          pendingTransitions := splice s3.pendingTransitions r.idx }

/-- Lines 132-137: run the pending restore of a superseded transition, if
any, before anything else. -/
def pendingStage (s0 : Sys) : Sys :=
  match s0.pendingRestore with
  | some rid => runRestoreById rid s0
  | none => s0

/-- The `currentTransition` record (lines 282-289). -/
def recordOf (inp : TInput) : TransRecord :=
  { toName := inp.toName, fromName := inp.fromName
    toParams := inp.toParams, fromParams := inp.fromParams }

/-- Lines 291-292: the system after the new transition record is pushed and
`pendingRestore` is set to this transition's restore closure. -/
def acceptedSys (inp : TInput) (s0 : Sys) : Sys :=
  { pendingStage s0 with
      pendingTransitions := (pendingStage s0).pendingTransitions ++ [recordOf inp]
      pendingRestore := some (pendingStage s0).restores.length }

/-- The surrogate-path build of this transition (lines 319-417), run on the
accepted system. -/
def buildOf (inp : TInput) (s0 : Sys) : BuildOut :=
  buildSurrogates inp.st inp.toName inp.fromName (acceptedSys inp s0)

/-- Lines 420-421: install the substitute paths (`toState.path` first, then
`fromState.path`). -/
def installedSys (inp : TInput) (s0 : Sys) : Sys :=
  setPathS inp.fromName (buildOf inp s0).fromP
    (setPathS inp.toName (buildOf inp s0).toP (buildOf inp s0).sys)

/-- The restore closure's state for an accepted transition: the saved
original path arrays (lines 271-272, read after the pending restore but
before installation), the registered restore functions, and `idx` — captured
at line 131 from the length of `pendingTransitions` *before* the pending
restore of a superseded transition has spliced that list. -/
def newRestoreState (inp : TInput) (s0 : Sys) : RestoreState :=
  { done := false
    savedToStatePath := some ((pendingStage s0).paths inp.toName)
    savedFromStatePath := some ((pendingStage s0).paths inp.fromName)
    toName := inp.toName
    fromName := inp.fromName
    restoreFunctions := (buildOf inp s0).rfns
    idx := s0.pendingTransitions.length }

/-- The restore closure's state when the target does not resolve: nothing was
saved or registered, but the closure still exists and will still splice at
the captured `idx` when invoked. -/
def emptyRestoreState (inp : TInput) (s0 : Sys) : RestoreState :=
  { done := false
    savedToStatePath := none
    savedFromStatePath := none
    toName := inp.toName
    fromName := inp.fromName
    restoreFunctions := []
    idx := s0.pendingTransitions.length }

/-- The decorated `$state.transitionTo` up to the delegated engine call
(lines 124-432): capture `idx` (line 131, before the pending restore runs),
run any pending restore (lines 132-137), and — when the target resolves
(lines 267-269) — save the original path arrays, push the transition record,
set `pendingRestore`, build the substitute paths, and install them.  Returns
the updated system and the handle of this transition's restore closure. -/
def transitionTo (inp : TInput) (s0 : Sys) : Sys × Nat :=
  if inp.toFound then
    ({ installedSys inp s0 with
        restores := (installedSys inp s0).restores ++ [newRestoreState inp s0] },
     (pendingStage s0).restores.length)
  else
    ({ pendingStage s0 with
        restores := (pendingStage s0).restores ++ [emptyRestoreState inp s0] },
     (pendingStage s0).restores.length)

/-- The engine rejection sentinels (lines 446-448) whose failures are not
reported as anomalies. -/
def sentinelMessages : List String :=
  ["transition prevented", "transition aborted", "transition superseded"]

/-- An engine rejection reason: its `.message` and an abstract identity. -/
structure EngineErr where
  message : String
  payload : Nat
deriving DecidableEq, Repr

/-- The `transitionSuccess` promise handler (lines 435-442): restore first,
mark the reached state active, return the engine's success value unchanged. -/
def transitionSuccess (rid : Nat) (stName : String) (s : Sys) : Sys × String :=
  let s1 := runRestoreById rid s
  let s2 := setStatusS stName "active" s1
  (s2, stName)

/-- The `transitionFailed` promise handler (lines 443-453): restore first,
report an anomaly only in debug mode and only for non-sentinel messages, and
re-surface the original rejection reason unchanged via `$q.reject(err)`. -/
def transitionFailed (dbg : Bool) (rid : Nat) (err : EngineErr) (s : Sys) :
    Sys × EngineErr × List String :=
  let s1 := runRestoreById rid s
  let logs := if dbg && !(sentinelMessages.contains err.message) then ["transition failed"] else []
  (s1, err, logs)

/-! ## Small list helpers -/

theorem getq_append_left {α} : ∀ (l1 l2 : List α) (i : Nat), i < l1.length →
    (l1 ++ l2)[i]? = l1[i]?
  | [], _, _, h => absurd h (by simp)
  | _ :: _, _, 0, _ => by simp
  | x :: xs, l2, i + 1, h => by
    have hx := getq_append_left xs l2 i (by simpa using h)
    simpa using hx

theorem getq_concat_self {α} (l : List α) (x : α) : (l ++ [x])[l.length]? = some x := by
  simp

theorem lt_of_getq {α} : ∀ {l : List α} {i : Nat} {x : α}, l[i]? = some x → i < l.length
  | [], i, x, h => by simp at h
  | _ :: _, 0, _, _ => by simp
  | y :: ys, i + 1, x, h => by
    have hx := lt_of_getq (l := ys) (i := i) (x := x) (by simpa using h)
    simpa using Nat.succ_lt_succ hx

theorem getq_set_self {α} : ∀ (l : List α) (i : Nat) (x : α), i < l.length →
    (l.set i x)[i]? = some x
  | [], _, _, h => absurd h (by simp)
  | _ :: _, 0, _, _ => by simp
  | y :: ys, i + 1, x, h => by simpa using getq_set_self ys i x (by simpa using h)

theorem getq_set_ne {α} : ∀ (l : List α) (i j : Nat) (x : α), i ≠ j →
    (l.set i x)[j]? = l[j]?
  | [], _, _, _, _ => rfl
  | y :: ys, 0, 0, x, h => absurd rfl h
  | y :: ys, 0, j + 1, x, _ => by simp
  | y :: ys, i + 1, 0, x, _ => by simp
  | y :: ys, i + 1, j + 1, x, h => by
    simpa using getq_set_ne ys i j x (fun hc => h (by simpa using congrArg Nat.succ hc))

/-! ## Field-stability lemmas for the primitive setters -/

@[simp] theorem setOnEnterH_onEnter (n : String) (h : Hook) (s : Sys) :
    (setOnEnterH n h s).onEnter = Function.update s.onEnter n h := rfl

@[simp] theorem setOnEnterH_onExit (n : String) (h : Hook) (s : Sys) :
    (setOnEnterH n h s).onExit = s.onExit := rfl

@[simp] theorem setOnEnterH_paths (n : String) (h : Hook) (s : Sys) :
    (setOnEnterH n h s).paths = s.paths := rfl

@[simp] theorem setOnEnterH_locals (n : String) (h : Hook) (s : Sys) :
    (setOnEnterH n h s).locals = s.locals := rfl

@[simp] theorem setOnEnterH_localsEntries (n : String) (h : Hook) (s : Sys) :
    (setOnEnterH n h s).localsEntries = s.localsEntries := rfl

@[simp] theorem setOnEnterH_inactiveLocals (n : String) (h : Hook) (s : Sys) :
    (setOnEnterH n h s).inactiveLocals = s.inactiveLocals := rfl

@[simp] theorem setOnEnterH_inactiveStates (n : String) (h : Hook) (s : Sys) :
    (setOnEnterH n h s).inactiveStates = s.inactiveStates := rfl

@[simp] theorem setOnEnterH_pendingTransitions (n : String) (h : Hook) (s : Sys) :
    (setOnEnterH n h s).pendingTransitions = s.pendingTransitions := rfl

@[simp] theorem setOnEnterH_pendingRestore (n : String) (h : Hook) (s : Sys) :
    (setOnEnterH n h s).pendingRestore = s.pendingRestore := rfl

@[simp] theorem setOnEnterH_restores (n : String) (h : Hook) (s : Sys) :
    (setOnEnterH n h s).restores = s.restores := rfl

@[simp] theorem setOnEnterH_status (n : String) (h : Hook) (s : Sys) :
    (setOnEnterH n h s).status = s.status := rfl

@[simp] theorem setOnExitH_onExit (n : String) (h : Hook) (s : Sys) :
    (setOnExitH n h s).onExit = Function.update s.onExit n h := rfl

@[simp] theorem setOnExitH_onEnter (n : String) (h : Hook) (s : Sys) :
    (setOnExitH n h s).onEnter = s.onEnter := rfl

@[simp] theorem setOnExitH_paths (n : String) (h : Hook) (s : Sys) :
    (setOnExitH n h s).paths = s.paths := rfl

@[simp] theorem setOnExitH_locals (n : String) (h : Hook) (s : Sys) :
    (setOnExitH n h s).locals = s.locals := rfl

@[simp] theorem setOnExitH_localsEntries (n : String) (h : Hook) (s : Sys) :
    (setOnExitH n h s).localsEntries = s.localsEntries := rfl

@[simp] theorem setOnExitH_inactiveLocals (n : String) (h : Hook) (s : Sys) :
    (setOnExitH n h s).inactiveLocals = s.inactiveLocals := rfl

@[simp] theorem setOnExitH_inactiveStates (n : String) (h : Hook) (s : Sys) :
    (setOnExitH n h s).inactiveStates = s.inactiveStates := rfl

@[simp] theorem setOnExitH_pendingTransitions (n : String) (h : Hook) (s : Sys) :
    (setOnExitH n h s).pendingTransitions = s.pendingTransitions := rfl

@[simp] theorem setOnExitH_pendingRestore (n : String) (h : Hook) (s : Sys) :
    (setOnExitH n h s).pendingRestore = s.pendingRestore := rfl

@[simp] theorem setOnExitH_restores (n : String) (h : Hook) (s : Sys) :
    (setOnExitH n h s).restores = s.restores := rfl

@[simp] theorem setOnExitH_status (n : String) (h : Hook) (s : Sys) :
    (setOnExitH n h s).status = s.status := rfl

@[simp] theorem setPathS_paths (n : String) (p : List PathElem) (s : Sys) :
    (setPathS n p s).paths = Function.update s.paths n p := rfl

@[simp] theorem setPathS_onEnter (n : String) (p : List PathElem) (s : Sys) :
    (setPathS n p s).onEnter = s.onEnter := rfl

@[simp] theorem setPathS_onExit (n : String) (p : List PathElem) (s : Sys) :
    (setPathS n p s).onExit = s.onExit := rfl

@[simp] theorem setPathS_locals (n : String) (p : List PathElem) (s : Sys) :
    (setPathS n p s).locals = s.locals := rfl

@[simp] theorem setPathS_localsEntries (n : String) (p : List PathElem) (s : Sys) :
    (setPathS n p s).localsEntries = s.localsEntries := rfl

@[simp] theorem setPathS_inactiveLocals (n : String) (p : List PathElem) (s : Sys) :
    (setPathS n p s).inactiveLocals = s.inactiveLocals := rfl

@[simp] theorem setPathS_inactiveStates (n : String) (p : List PathElem) (s : Sys) :
    (setPathS n p s).inactiveStates = s.inactiveStates := rfl

@[simp] theorem setPathS_pendingTransitions (n : String) (p : List PathElem) (s : Sys) :
    (setPathS n p s).pendingTransitions = s.pendingTransitions := rfl

@[simp] theorem setPathS_pendingRestore (n : String) (p : List PathElem) (s : Sys) :
    (setPathS n p s).pendingRestore = s.pendingRestore := rfl

@[simp] theorem setPathS_restores (n : String) (p : List PathElem) (s : Sys) :
    (setPathS n p s).restores = s.restores := rfl

@[simp] theorem setPathS_status (n : String) (p : List PathElem) (s : Sys) :
    (setPathS n p s).status = s.status := rfl

@[simp] theorem setStatusS_status (n v : String) (s : Sys) :
    (setStatusS n v s).status = Function.update s.status n v := rfl

@[simp] theorem setStatusS_onEnter (n v : String) (s : Sys) :
    (setStatusS n v s).onEnter = s.onEnter := rfl

@[simp] theorem setStatusS_onExit (n v : String) (s : Sys) :
    (setStatusS n v s).onExit = s.onExit := rfl

@[simp] theorem setStatusS_paths (n v : String) (s : Sys) :
    (setStatusS n v s).paths = s.paths := rfl

/-! ## Characterisation of running the registered restore functions -/

/-- The last `setOnEnter` value registered for state `n` (later registrations
win, matching the in-order `forEach` of line 162). -/
def lastSetOnEnter : List RestoreFn → String → Option Hook
  | [], _ => none
  | f :: fs, n =>
    match lastSetOnEnter fs n with
    | some h => some h
    | none =>
      match f with
      | .setOnEnter m h => if m = n then some h else none
      | _ => none

/-- The last `setOnExit` value registered for state `n`. -/
def lastSetOnExit : List RestoreFn → String → Option Hook
  | [], _ => none
  | f :: fs, n =>
    match lastSetOnExit fs n with
    | some h => some h
    | none =>
      match f with
      | .setOnExit m h => if m = n then some h else none
      | _ => none

theorem runRestoreFns_onEnter (fns : List RestoreFn) (s : Sys) (n : String) :
    (runRestoreFns fns s).onEnter n = (lastSetOnEnter fns n).getD (s.onEnter n) := by
  induction fns generalizing s with
  | nil => rfl
  | cons f fs ih =>
    rw [runRestoreFns, ih]
    cases hfs : lastSetOnEnter fs n with
    | some h => simp [lastSetOnEnter, hfs]
    | none =>
      cases f with
      | setOnEnter m h =>
        by_cases hm : m = n
        · subst hm
          simp [lastSetOnEnter, hfs, runRestoreFn, Function.update_apply]
        · have hnm : ¬n = m := fun hc => hm hc.symm
          simp [lastSetOnEnter, hfs, runRestoreFn, Function.update_apply, hm, hnm]
      | setOnExit m h =>
        simp [lastSetOnEnter, hfs, runRestoreFn]

theorem runRestoreFns_onExit (fns : List RestoreFn) (s : Sys) (n : String) :
    (runRestoreFns fns s).onExit n = (lastSetOnExit fns n).getD (s.onExit n) := by
  induction fns generalizing s with
  | nil => rfl
  | cons f fs ih =>
    rw [runRestoreFns, ih]
    cases hfs : lastSetOnExit fs n with
    | some h => simp [lastSetOnExit, hfs]
    | none =>
      cases f with
      | setOnExit m h =>
        by_cases hm : m = n
        · subst hm
          simp [lastSetOnExit, hfs, runRestoreFn, Function.update_apply]
        · have hnm : ¬n = m := fun hc => hm hc.symm
          simp [lastSetOnExit, hfs, runRestoreFn, Function.update_apply, hm, hnm]
      | setOnEnter m h =>
        simp [lastSetOnExit, hfs, runRestoreFn]

theorem runRestoreFns_paths (fns : List RestoreFn) (s : Sys) :
    (runRestoreFns fns s).paths = s.paths := by
  induction fns generalizing s with
  | nil => rfl
  | cons f fs ih => rw [runRestoreFns, ih]; cases f <;> simp [runRestoreFn]

theorem runRestoreFns_misc (fns : List RestoreFn) (s : Sys) :
    (runRestoreFns fns s).locals = s.locals ∧
    (runRestoreFns fns s).localsEntries = s.localsEntries ∧
    (runRestoreFns fns s).inactiveLocals = s.inactiveLocals ∧
    (runRestoreFns fns s).inactiveStates = s.inactiveStates ∧
    (runRestoreFns fns s).pendingTransitions = s.pendingTransitions ∧
    (runRestoreFns fns s).pendingRestore = s.pendingRestore ∧
    (runRestoreFns fns s).restores = s.restores ∧
    (runRestoreFns fns s).status = s.status := by
  induction fns generalizing s with
  | nil => exact ⟨rfl, rfl, rfl, rfl, rfl, rfl, rfl, rfl⟩
  | cons f fs ih =>
    have h := ih (runRestoreFn f s)
    cases f <;> simpa [runRestoreFn] using h

theorem lastSetOnEnter_concat_eq (fns : List RestoreFn) (n : String) (h : Hook) :
    lastSetOnEnter (fns ++ [.setOnEnter n h]) n = some h := by
  induction fns with
  | nil => simp [lastSetOnEnter]
  | cons f fs ih => simp [lastSetOnEnter, ih]

theorem lastSetOnEnter_concat_ne (fns : List RestoreFn) (m n : String) (h : Hook)
    (hmn : m ≠ n) :
    lastSetOnEnter (fns ++ [.setOnEnter m h]) n = lastSetOnEnter fns n := by
  induction fns with
  | nil => simp [lastSetOnEnter, hmn]
  | cons f fs ih => simp [lastSetOnEnter, ih]

theorem lastSetOnEnter_concat_x (fns : List RestoreFn) (m n : String) (h : Hook) :
    lastSetOnEnter (fns ++ [.setOnExit m h]) n = lastSetOnEnter fns n := by
  induction fns with
  | nil => simp [lastSetOnEnter]
  | cons f fs ih => simp [lastSetOnEnter, ih]

theorem lastSetOnExit_concat_eq (fns : List RestoreFn) (n : String) (h : Hook) :
    lastSetOnExit (fns ++ [.setOnExit n h]) n = some h := by
  induction fns with
  | nil => simp [lastSetOnExit]
  | cons f fs ih => simp [lastSetOnExit, ih]

theorem lastSetOnExit_concat_ne (fns : List RestoreFn) (m n : String) (h : Hook)
    (hmn : m ≠ n) :
    lastSetOnExit (fns ++ [.setOnExit m h]) n = lastSetOnExit fns n := by
  induction fns with
  | nil => simp [lastSetOnExit, hmn]
  | cons f fs ih => simp [lastSetOnExit, ih]

theorem lastSetOnExit_concat_e (fns : List RestoreFn) (m n : String) (h : Hook) :
    lastSetOnExit (fns ++ [.setOnEnter m h]) n = lastSetOnExit fns n := by
  induction fns with
  | nil => simp [lastSetOnExit]
  | cons f fs ih => simp [lastSetOnExit, ih]

/-! ## Shape of one loop step on the hook side -/

theorem enterStep_hooks (a : EnterAcc) (x : EnterOp × PathElem) :
    (x.1 = .keep ∧ enterStep a x = a) ∨
    (x.1 ≠ .keep ∧ ∃ w,
      (enterStep a x).sys = setOnEnterH (elemName x.2) w a.sys ∧
      (enterStep a x).rfns = a.rfns ++ [.setOnEnter (elemName x.2) (a.sys.onEnter (elemName x.2))]) := by
  obtain ⟨op, e⟩ := x
  cases op with
  | reactivate =>
    exact Or.inr ⟨by simp, .reactivate2Wrap (elemName e), rfl, rfl⟩
  | updateStateParams =>
    exact Or.inr ⟨by simp, .updateParamsWrap (elemName e) (a.sys.onEnter (elemName e)), rfl, rfl⟩
  | enter =>
    exact Or.inr ⟨by simp, .enterWrap (elemName e) (a.sys.onEnter (elemName e)), rfl, rfl⟩
  | keep => exact Or.inl ⟨rfl, rfl⟩

theorem exitStep_hooks (a : ExitAcc) (x : ExitOp × PathElem) :
    (x.1 = .keep ∧ exitStep a x = a) ∨
    (x.1 ≠ .keep ∧ ∃ w,
      (exitStep a x).sys = setOnExitH (elemName x.2) w a.sys ∧
      (exitStep a x).rfns = a.rfns ++ [.setOnExit (elemName x.2) (a.sys.onExit (elemName x.2))]) := by
  obtain ⟨op, e⟩ := x
  cases op with
  | inactivate =>
    exact Or.inr ⟨by simp, .inactivateWrap (elemName e), rfl, rfl⟩
  | exitState =>
    exact Or.inr ⟨by simp, .exitWrap (elemName e) (a.sys.onExit (elemName e)), rfl, rfl⟩
  | keep => exact Or.inl ⟨rfl, rfl⟩

/-! ## System-state stability through the loops -/

theorem enterLoop_sys_stable (l : List (EnterOp × PathElem)) (a : EnterAcc) :
    (enterLoop l a).sys.onExit = a.sys.onExit ∧
    (enterLoop l a).sys.paths = a.sys.paths ∧
    (enterLoop l a).sys.locals = a.sys.locals ∧
    (enterLoop l a).sys.localsEntries = a.sys.localsEntries ∧
    (enterLoop l a).sys.inactiveLocals = a.sys.inactiveLocals ∧
    (enterLoop l a).sys.inactiveStates = a.sys.inactiveStates ∧
    (enterLoop l a).sys.pendingTransitions = a.sys.pendingTransitions ∧
    (enterLoop l a).sys.pendingRestore = a.sys.pendingRestore ∧
    (enterLoop l a).sys.restores = a.sys.restores ∧
    (enterLoop l a).sys.status = a.sys.status := by
  induction l generalizing a with
  | nil => exact ⟨rfl, rfl, rfl, rfl, rfl, rfl, rfl, rfl, rfl, rfl⟩
  | cons x xs ih =>
    have h := ih (enterStep a x)
    rcases enterStep_hooks a x with ⟨_, heq⟩ | ⟨_, w, hsys, _⟩
    · rw [enterLoop, heq]; exact ih a
    · rw [enterLoop]
      refine ⟨?_, ?_, ?_, ?_, ?_, ?_, ?_, ?_, ?_, ?_⟩ <;>
        simp only [h.1, h.2.1, h.2.2.1, h.2.2.2.1, h.2.2.2.2.1, h.2.2.2.2.2.1,
          h.2.2.2.2.2.2.1, h.2.2.2.2.2.2.2.1, h.2.2.2.2.2.2.2.2.1, h.2.2.2.2.2.2.2.2.2,
          hsys] <;> simp

theorem exitLoop_sys_stable (l : List (ExitOp × PathElem)) (a : ExitAcc) :
    (exitLoop l a).sys.onEnter = a.sys.onEnter ∧
    (exitLoop l a).sys.paths = a.sys.paths ∧
    (exitLoop l a).sys.locals = a.sys.locals ∧
    (exitLoop l a).sys.localsEntries = a.sys.localsEntries ∧
    (exitLoop l a).sys.inactiveLocals = a.sys.inactiveLocals ∧
    (exitLoop l a).sys.inactiveStates = a.sys.inactiveStates ∧
    (exitLoop l a).sys.pendingTransitions = a.sys.pendingTransitions ∧
    (exitLoop l a).sys.pendingRestore = a.sys.pendingRestore ∧
    (exitLoop l a).sys.restores = a.sys.restores ∧
    (exitLoop l a).sys.status = a.sys.status := by
  induction l generalizing a with
  | nil => exact ⟨rfl, rfl, rfl, rfl, rfl, rfl, rfl, rfl, rfl, rfl⟩
  | cons x xs ih =>
    have h := ih (exitStep a x)
    rcases exitStep_hooks a x with ⟨_, heq⟩ | ⟨_, w, hsys, _⟩
    · rw [exitLoop, heq]; exact ih a
    · rw [exitLoop]
      refine ⟨?_, ?_, ?_, ?_, ?_, ?_, ?_, ?_, ?_, ?_⟩ <;>
        simp only [h.1, h.2.1, h.2.2.1, h.2.2.2.1, h.2.2.2.2.1, h.2.2.2.2.2.1,
          h.2.2.2.2.2.2.1, h.2.2.2.2.2.2.2.1, h.2.2.2.2.2.2.2.2.1, h.2.2.2.2.2.2.2.2.2,
          hsys] <;> simp

theorem orphanLoop_cons (nm : String) (xs : List String) (a : ExitAcc) :
    orphanLoop (nm :: xs) a =
      orphanLoop xs
        ⟨a.fromP ++ [PathElem.real nm], a.exited,
          (stateExitedSurrogate nm a.sys).1,
          a.rfns ++ [(stateExitedSurrogate nm a.sys).2]⟩ := rfl

theorem orphanLoop_sys_stable (l : List String) (a : ExitAcc) :
    (orphanLoop l a).sys.onEnter = a.sys.onEnter ∧
    (orphanLoop l a).sys.paths = a.sys.paths ∧
    (orphanLoop l a).sys.locals = a.sys.locals ∧
    (orphanLoop l a).sys.localsEntries = a.sys.localsEntries ∧
    (orphanLoop l a).sys.inactiveLocals = a.sys.inactiveLocals ∧
    (orphanLoop l a).sys.inactiveStates = a.sys.inactiveStates ∧
    (orphanLoop l a).sys.pendingTransitions = a.sys.pendingTransitions ∧
    (orphanLoop l a).sys.pendingRestore = a.sys.pendingRestore ∧
    (orphanLoop l a).sys.restores = a.sys.restores ∧
    (orphanLoop l a).sys.status = a.sys.status := by
  induction l generalizing a with
  | nil => exact ⟨rfl, rfl, rfl, rfl, rfl, rfl, rfl, rfl, rfl, rfl⟩
  | cons nm xs ih =>
    have h := ih ⟨a.fromP ++ [PathElem.real nm], a.exited,
      (stateExitedSurrogate nm a.sys).1, a.rfns ++ [(stateExitedSurrogate nm a.sys).2]⟩
    rw [orphanLoop_cons]
    refine ⟨?_, ?_, ?_, ?_, ?_, ?_, ?_, ?_, ?_, ?_⟩ <;>
      simp only [h.1, h.2.1, h.2.2.1, h.2.2.2.1, h.2.2.2.2.1, h.2.2.2.2.2.1,
        h.2.2.2.2.2.2.1, h.2.2.2.2.2.2.2.1, h.2.2.2.2.2.2.2.2.1, h.2.2.2.2.2.2.2.2.2] <;>
      simp [stateExitedSurrogate]

/-! ## Accumulator structure through the loops -/

theorem enterLoop_terminal (l : List (EnterOp × PathElem)) (a : EnterAcc) :
    (enterLoop l a).terminal = terminalOf l a.terminal := by
  induction l generalizing a with
  | nil => rfl
  | cons x xs ih =>
    obtain ⟨op, e⟩ := x
    rw [enterLoop, terminalOf, ih]
    cases op <;> simp [enterStep]

theorem exitLoop_exited (l : List (ExitOp × PathElem)) (a : ExitAcc) :
    (exitLoop l a).exited = a.exited ++ exitNames l := by
  induction l generalizing a with
  | nil => simp [exitLoop, exitNames]
  | cons x xs ih =>
    obtain ⟨op, e⟩ := x
    rw [exitLoop, ih]
    cases op <;> simp [exitStep, exitNames]

theorem orphanLoop_exited (l : List String) (a : ExitAcc) :
    (orphanLoop l a).exited = a.exited := by
  induction l generalizing a with
  | nil => rfl
  | cons nm xs ih => rw [orphanLoop]; exact ih _

theorem enterLoop_toP_getq (l : List (EnterOp × PathElem)) (a : EnterAcc) (p : Nat)
    (x : PathElem) (hp : a.toP[p]? = some x) : (enterLoop l a).toP[p]? = some x := by
  induction l generalizing a with
  | nil => exact hp
  | cons y xs ih =>
    obtain ⟨op, e⟩ := y
    refine ih _ ?_
    have hlt := lt_of_getq hp
    cases op with
    | reactivate =>
      have he : (enterStep a (EnterOp.reactivate, e)).toP
          = a.toP ++ [PathElem.surrogate (stateReactivatedSurrogatePhase1 (elemName e) a.sys)] := rfl
      rw [he, getq_append_left _ _ _ hlt]; exact hp
    | updateStateParams =>
      have he : (enterStep a (EnterOp.updateStateParams, e)).toP = a.toP ++ [e] := rfl
      rw [he, getq_append_left _ _ _ hlt]; exact hp
    | enter =>
      have he : (enterStep a (EnterOp.enter, e)).toP = a.toP ++ [e] := rfl
      rw [he, getq_append_left _ _ _ hlt]; exact hp
    | keep => exact hp

theorem enterLoop_fromP_getq (l : List (EnterOp × PathElem)) (a : EnterAcc) (p : Nat)
    (x : PathElem) (hp : a.fromP[p]? = some x) : (enterLoop l a).fromP[p]? = some x := by
  induction l generalizing a with
  | nil => exact hp
  | cons y xs ih =>
    obtain ⟨op, e⟩ := y
    refine ih _ ?_
    have hlt := lt_of_getq hp
    cases op with
    | reactivate =>
      have he : (enterStep a (EnterOp.reactivate, e)).fromP
          = a.fromP ++ [PathElem.surrogate (stateReactivatedSurrogatePhase1 (elemName e) a.sys)] := rfl
      rw [he, getq_append_left _ _ _ hlt]; exact hp
    | updateStateParams => exact hp
    | enter => exact hp
    | keep => exact hp

theorem enterLoop_fromP_mem (l : List (EnterOp × PathElem)) (a : EnterAcc)
    (x : PathElem) (hx : x ∈ (enterLoop l a).fromP) :
    x ∈ a.fromP ∨ ∃ su, x = PathElem.surrogate su ∧ su.surrogateType = "reactivate_phase1" := by
  induction l generalizing a with
  | nil => exact Or.inl hx
  | cons y xs ih =>
    obtain ⟨op, e⟩ := y
    rw [enterLoop] at hx
    rcases ih _ hx with h | h
    · cases op with
      | reactivate =>
        simp only [enterStep, List.mem_append, List.mem_singleton] at h
        rcases h with h | h
        · exact Or.inl h
        · exact Or.inr ⟨_, h, rfl⟩
      | updateStateParams => exact Or.inl h
      | enter => exact Or.inl h
      | keep => exact Or.inl h
    · exact Or.inr h

theorem enterLoop_reacts_mem (l : List (EnterOp × PathElem)) (a : EnterAcc)
    (su : SurrogateState) (hx : su ∈ (enterLoop l a).reacts) :
    su ∈ a.reacts ∨
      (su.surrogateType = "reactivate_phase2" ∧ su.resolve = none ∧ su.views = none) := by
  induction l generalizing a with
  | nil => exact Or.inl hx
  | cons y xs ih =>
    obtain ⟨op, e⟩ := y
    rw [enterLoop] at hx
    rcases ih _ hx with h | h
    · cases op with
      | reactivate =>
        simp only [enterStep, List.mem_append, List.mem_singleton] at h
        rcases h with h | h
        · exact Or.inl h
        · subst h; exact Or.inr ⟨rfl, rfl, rfl⟩
      | updateStateParams => exact Or.inl h
      | enter => exact Or.inl h
      | keep => exact Or.inl h
    · exact Or.inr h

theorem exitLoop_fromP_mem (l : List (ExitOp × PathElem)) (a : ExitAcc)
    (x : PathElem) (hx : x ∈ (exitLoop l a).fromP) :
    x ∈ a.fromP ∨ (∃ su, x = PathElem.surrogate su ∧ su.surrogateType = "inactivate") ∨
      ∃ pr ∈ l, x = pr.2 := by
  induction l generalizing a with
  | nil => exact Or.inl hx
  | cons y xs ih =>
    obtain ⟨op, e⟩ := y
    rw [exitLoop] at hx
    rcases ih _ hx with h | h | h
    · cases op with
      | inactivate =>
        simp only [exitStep, List.mem_append, List.mem_singleton] at h
        rcases h with h | h
        · exact Or.inl h
        · exact Or.inr (Or.inl ⟨_, h, rfl⟩)
      | exitState =>
        simp only [exitStep, List.mem_append, List.mem_singleton] at h
        rcases h with h | h
        · exact Or.inl h
        · exact Or.inr (Or.inr ⟨(ExitOp.exitState, e), by simp, h⟩)
      | keep => exact Or.inl h
    · exact Or.inr (Or.inl h)
    · obtain ⟨pr, hpr, hx2⟩ := h
      exact Or.inr (Or.inr ⟨pr, List.mem_cons_of_mem _ hpr, hx2⟩)

theorem orphanLoop_fromP_mem (l : List String) (a : ExitAcc)
    (x : PathElem) (hx : x ∈ (orphanLoop l a).fromP) :
    x ∈ a.fromP ∨ ∃ nm, x = PathElem.real nm := by
  induction l generalizing a with
  | nil => exact Or.inl hx
  | cons nm xs ih =>
    rw [orphanLoop] at hx
    rcases ih _ hx with h | h
    · simp only [List.mem_append, List.mem_singleton] at h
      rcases h with h | h
      · exact Or.inl h
      · exact Or.inr ⟨nm, h⟩
    · exact Or.inr h

theorem orphanLoop_fromP (l : List String) (a : ExitAcc) :
    (orphanLoop l a).fromP = a.fromP ++ l.map PathElem.real := by
  induction l generalizing a with
  | nil => simp [orphanLoop]
  | cons nm xs ih => rw [orphanLoop, ih]; simp

/-! ## Target lists and hook-slot stability -/

theorem enterTargets_cons (op : EnterOp) (e : PathElem) (xs : List (EnterOp × PathElem)) :
    enterTargets ((op, e) :: xs) =
      if op = .keep then enterTargets xs else elemName e :: enterTargets xs := by
  cases op <;> simp [enterTargets]

theorem exitTargets_cons (op : ExitOp) (e : PathElem) (xs : List (ExitOp × PathElem)) :
    exitTargets ((op, e) :: xs) =
      if op = .keep then exitTargets xs else elemName e :: exitTargets xs := by
  cases op <;> simp [exitTargets]

theorem enterLoop_onEnter_stable (l : List (EnterOp × PathElem)) (a : EnterAcc) (n : String)
    (hn : n ∉ enterTargets l) : (enterLoop l a).sys.onEnter n = a.sys.onEnter n := by
  induction l generalizing a with
  | nil => rfl
  | cons x xs ih =>
    obtain ⟨op, e⟩ := x
    rw [enterTargets_cons] at hn
    rcases enterStep_hooks a (op, e) with ⟨hk, heq⟩ | ⟨hk, w, hsys, _⟩
    · have hk2 : op = EnterOp.keep := hk
      rw [enterLoop, heq]
      exact ih a (by simpa [hk2] using hn)
    · have hk2 : ¬op = EnterOp.keep := hk
      rw [if_neg hk2] at hn
      have hne : n ≠ elemName e := fun hc => hn (hc ▸ List.mem_cons_self _ _)
      have hxs : n ∉ enterTargets xs := fun hc => hn (List.mem_cons_of_mem _ hc)
      rw [enterLoop, ih _ hxs, hsys]
      simp [Function.update_apply, hne]

theorem enterLoop_lastSetOnEnter_stable (l : List (EnterOp × PathElem)) (a : EnterAcc)
    (n : String) (hn : n ∉ enterTargets l) :
    lastSetOnEnter (enterLoop l a).rfns n = lastSetOnEnter a.rfns n := by
  induction l generalizing a with
  | nil => rfl
  | cons x xs ih =>
    obtain ⟨op, e⟩ := x
    rw [enterTargets_cons] at hn
    rcases enterStep_hooks a (op, e) with ⟨hk, heq⟩ | ⟨hk, w, _, hrf⟩
    · have hk2 : op = EnterOp.keep := hk
      rw [enterLoop, heq]
      exact ih a (by simpa [hk2] using hn)
    · have hk2 : ¬op = EnterOp.keep := hk
      rw [if_neg hk2] at hn
      have hne : elemName e ≠ n := fun hc => hn (hc ▸ List.mem_cons_self _ _)
      have hxs : n ∉ enterTargets xs := fun hc => hn (List.mem_cons_of_mem _ hc)
      rw [enterLoop, ih _ hxs, hrf, lastSetOnEnter_concat_ne _ _ _ _ hne]

theorem enterLoop_lastSetOnExit (l : List (EnterOp × PathElem)) (a : EnterAcc) (n : String) :
    lastSetOnExit (enterLoop l a).rfns n = lastSetOnExit a.rfns n := by
  induction l generalizing a with
  | nil => rfl
  | cons x xs ih =>
    rcases enterStep_hooks a x with ⟨_, heq⟩ | ⟨_, w, _, hrf⟩
    · rw [enterLoop, heq]; exact ih a
    · rw [enterLoop, ih _, hrf, lastSetOnExit_concat_e]

theorem exitLoop_onExit_stable (l : List (ExitOp × PathElem)) (a : ExitAcc) (n : String)
    (hn : n ∉ exitTargets l) : (exitLoop l a).sys.onExit n = a.sys.onExit n := by
  induction l generalizing a with
  | nil => rfl
  | cons x xs ih =>
    obtain ⟨op, e⟩ := x
    rw [exitTargets_cons] at hn
    rcases exitStep_hooks a (op, e) with ⟨hk, heq⟩ | ⟨hk, w, hsys, _⟩
    · have hk2 : op = ExitOp.keep := hk
      rw [exitLoop, heq]
      exact ih a (by simpa [hk2] using hn)
    · have hk2 : ¬op = ExitOp.keep := hk
      rw [if_neg hk2] at hn
      have hne : n ≠ elemName e := fun hc => hn (hc ▸ List.mem_cons_self _ _)
      have hxs : n ∉ exitTargets xs := fun hc => hn (List.mem_cons_of_mem _ hc)
      rw [exitLoop, ih _ hxs, hsys]
      simp [Function.update_apply, hne]

theorem exitLoop_lastSetOnExit_stable (l : List (ExitOp × PathElem)) (a : ExitAcc)
    (n : String) (hn : n ∉ exitTargets l) :
    lastSetOnExit (exitLoop l a).rfns n = lastSetOnExit a.rfns n := by
  induction l generalizing a with
  | nil => rfl
  | cons x xs ih =>
    obtain ⟨op, e⟩ := x
    rw [exitTargets_cons] at hn
    rcases exitStep_hooks a (op, e) with ⟨hk, heq⟩ | ⟨hk, w, _, hrf⟩
    · have hk2 : op = ExitOp.keep := hk
      rw [exitLoop, heq]
      exact ih a (by simpa [hk2] using hn)
    · have hk2 : ¬op = ExitOp.keep := hk
      rw [if_neg hk2] at hn
      have hne : elemName e ≠ n := fun hc => hn (hc ▸ List.mem_cons_self _ _)
      have hxs : n ∉ exitTargets xs := fun hc => hn (List.mem_cons_of_mem _ hc)
      rw [exitLoop, ih _ hxs, hrf, lastSetOnExit_concat_ne _ _ _ _ hne]

theorem exitLoop_lastSetOnEnter (l : List (ExitOp × PathElem)) (a : ExitAcc) (n : String) :
    lastSetOnEnter (exitLoop l a).rfns n = lastSetOnEnter a.rfns n := by
  induction l generalizing a with
  | nil => rfl
  | cons x xs ih =>
    rcases exitStep_hooks a x with ⟨_, heq⟩ | ⟨_, w, _, hrf⟩
    · rw [exitLoop, heq]; exact ih a
    · rw [exitLoop, ih _, hrf, lastSetOnEnter_concat_x]

theorem orphanLoop_onExit_stable (l : List String) (a : ExitAcc) (n : String)
    (hn : n ∉ l) : (orphanLoop l a).sys.onExit n = a.sys.onExit n := by
  induction l generalizing a with
  | nil => rfl
  | cons nm xs ih =>
    have hne : n ≠ nm := fun hc => hn (hc ▸ List.mem_cons_self _ _)
    have hxs : n ∉ xs := fun hc => hn (List.mem_cons_of_mem _ hc)
    rw [orphanLoop_cons, ih _ hxs]
    simp [stateExitedSurrogate, Function.update_apply, hne]

theorem orphanLoop_lastSetOnExit_stable (l : List String) (a : ExitAcc) (n : String)
    (hn : n ∉ l) :
    lastSetOnExit (orphanLoop l a).rfns n = lastSetOnExit a.rfns n := by
  induction l generalizing a with
  | nil => rfl
  | cons nm xs ih =>
    have hne : nm ≠ n := fun hc => hn (hc ▸ List.mem_cons_self _ _)
    have hxs : n ∉ xs := fun hc => hn (List.mem_cons_of_mem _ hc)
    rw [orphanLoop_cons, ih _ hxs]
    simp only [stateExitedSurrogate]
    rw [lastSetOnExit_concat_ne _ _ _ _ hne]

theorem orphanLoop_lastSetOnEnter (l : List String) (a : ExitAcc) (n : String) :
    lastSetOnEnter (orphanLoop l a).rfns n = lastSetOnEnter a.rfns n := by
  induction l generalizing a with
  | nil => rfl
  | cons nm xs ih =>
    rw [orphanLoop_cons, ih _]
    simp only [stateExitedSurrogate]
    rw [lastSetOnEnter_concat_x]

/-! ## The restore functions undo every hook wrap of each loop -/

theorem enterLoop_restore (l : List (EnterOp × PathElem)) (a : EnterAcc) (s0 : Sys)
    (hnd : (enterTargets l).Nodup)
    (hfresh : ∀ n ∈ enterTargets l, lastSetOnEnter a.rfns n = none)
    (hcur : ∀ n ∈ enterTargets l, a.sys.onEnter n = s0.onEnter n)
    (hInvE : ∀ n, (runRestoreFns a.rfns a.sys).onEnter n = s0.onEnter n)
    (hInvX : ∀ n, (runRestoreFns a.rfns a.sys).onExit n = s0.onExit n) :
    (∀ n, (runRestoreFns (enterLoop l a).rfns (enterLoop l a).sys).onEnter n = s0.onEnter n) ∧
    (∀ n, (runRestoreFns (enterLoop l a).rfns (enterLoop l a).sys).onExit n = s0.onExit n) := by
  induction l generalizing a with
  | nil => exact ⟨hInvE, hInvX⟩
  | cons x xs ih =>
    obtain ⟨op, e⟩ := x
    rw [enterTargets_cons] at hnd hfresh hcur
    rcases enterStep_hooks a (op, e) with ⟨hk, heq⟩ | ⟨hk, w, hsys, hrf⟩
    · have hk2 : op = EnterOp.keep := hk
      rw [enterLoop, heq]
      rw [if_pos hk2] at hnd hfresh hcur
      exact ih a hnd hfresh hcur hInvE hInvX
    · have hk2 : ¬op = EnterOp.keep := hk
      rw [if_neg hk2] at hnd hfresh hcur
      have hnin : elemName e ∉ enterTargets xs := (List.nodup_cons.mp hnd).1
      have hndxs : (enterTargets xs).Nodup := (List.nodup_cons.mp hnd).2
      rw [enterLoop]
      refine ih (enterStep a (op, e)) hndxs ?_ ?_ ?_ ?_
      · intro n hn
        have hne : elemName e ≠ n := fun hc => hnin (by rw [hc]; exact hn)
        rw [hrf, lastSetOnEnter_concat_ne _ _ _ _ hne]
        exact hfresh n (List.mem_cons_of_mem _ hn)
      · intro n hn
        have hne : n ≠ elemName e := fun hc => hnin (by rw [← hc]; exact hn)
        rw [hsys]
        simp only [setOnEnterH_onEnter, Function.update_apply, if_neg hne]
        exact hcur n (List.mem_cons_of_mem _ hn)
      · intro n
        rw [runRestoreFns_onEnter, hrf, hsys]
        by_cases hn : n = elemName e
        · subst hn
          rw [lastSetOnEnter_concat_eq]
          simpa using hcur (elemName e) (List.mem_cons_self _ _)
        · have hne : elemName e ≠ n := fun hc => hn hc.symm
          rw [lastSetOnEnter_concat_ne _ _ _ _ hne]
          simp only [setOnEnterH_onEnter, Function.update_apply, if_neg hn]
          rw [← runRestoreFns_onEnter]
          exact hInvE n
      · intro n
        rw [runRestoreFns_onExit, hrf, lastSetOnExit_concat_e, hsys]
        simp only [setOnEnterH_onExit]
        rw [← runRestoreFns_onExit]
        exact hInvX n

theorem exitLoop_restore (l : List (ExitOp × PathElem)) (a : ExitAcc) (s0 : Sys)
    (hnd : (exitTargets l).Nodup)
    (hfresh : ∀ n ∈ exitTargets l, lastSetOnExit a.rfns n = none)
    (hcur : ∀ n ∈ exitTargets l, a.sys.onExit n = s0.onExit n)
    (hInvE : ∀ n, (runRestoreFns a.rfns a.sys).onEnter n = s0.onEnter n)
    (hInvX : ∀ n, (runRestoreFns a.rfns a.sys).onExit n = s0.onExit n) :
    (∀ n, (runRestoreFns (exitLoop l a).rfns (exitLoop l a).sys).onEnter n = s0.onEnter n) ∧
    (∀ n, (runRestoreFns (exitLoop l a).rfns (exitLoop l a).sys).onExit n = s0.onExit n) := by
  induction l generalizing a with
  | nil => exact ⟨hInvE, hInvX⟩
  | cons x xs ih =>
    obtain ⟨op, e⟩ := x
    rw [exitTargets_cons] at hnd hfresh hcur
    rcases exitStep_hooks a (op, e) with ⟨hk, heq⟩ | ⟨hk, w, hsys, hrf⟩
    · have hk2 : op = ExitOp.keep := hk
      rw [exitLoop, heq]
      rw [if_pos hk2] at hnd hfresh hcur
      exact ih a hnd hfresh hcur hInvE hInvX
    · have hk2 : ¬op = ExitOp.keep := hk
      rw [if_neg hk2] at hnd hfresh hcur
      have hnin : elemName e ∉ exitTargets xs := (List.nodup_cons.mp hnd).1
      have hndxs : (exitTargets xs).Nodup := (List.nodup_cons.mp hnd).2
      rw [exitLoop]
      refine ih (exitStep a (op, e)) hndxs ?_ ?_ ?_ ?_
      · intro n hn
        have hne : elemName e ≠ n := fun hc => hnin (by rw [hc]; exact hn)
        rw [hrf, lastSetOnExit_concat_ne _ _ _ _ hne]
        exact hfresh n (List.mem_cons_of_mem _ hn)
      · intro n hn
        have hne : n ≠ elemName e := fun hc => hnin (by rw [← hc]; exact hn)
        rw [hsys]
        simp only [setOnExitH_onExit, Function.update_apply, if_neg hne]
        exact hcur n (List.mem_cons_of_mem _ hn)
      · intro n
        rw [runRestoreFns_onEnter, hrf, lastSetOnEnter_concat_x, hsys]
        simp only [setOnExitH_onEnter]
        rw [← runRestoreFns_onEnter]
        exact hInvE n
      · intro n
        rw [runRestoreFns_onExit, hrf, hsys]
        by_cases hn : n = elemName e
        · subst hn
          rw [lastSetOnExit_concat_eq]
          simpa using hcur (elemName e) (List.mem_cons_self _ _)
        · have hne : elemName e ≠ n := fun hc => hn hc.symm
          rw [lastSetOnExit_concat_ne _ _ _ _ hne]
          simp only [setOnExitH_onExit, Function.update_apply, if_neg hn]
          rw [← runRestoreFns_onExit]
          exact hInvX n

theorem orphanLoop_restore (l : List String) (a : ExitAcc) (s0 : Sys)
    (hnd : l.Nodup)
    (hfresh : ∀ n ∈ l, lastSetOnExit a.rfns n = none)
    (hcur : ∀ n ∈ l, a.sys.onExit n = s0.onExit n)
    (hInvE : ∀ n, (runRestoreFns a.rfns a.sys).onEnter n = s0.onEnter n)
    (hInvX : ∀ n, (runRestoreFns a.rfns a.sys).onExit n = s0.onExit n) :
    (∀ n, (runRestoreFns (orphanLoop l a).rfns (orphanLoop l a).sys).onEnter n = s0.onEnter n) ∧
    (∀ n, (runRestoreFns (orphanLoop l a).rfns (orphanLoop l a).sys).onExit n = s0.onExit n) := by
  induction l generalizing a with
  | nil => exact ⟨hInvE, hInvX⟩
  | cons nm xs ih =>
    have hnin : nm ∉ xs := (List.nodup_cons.mp hnd).1
    have hndxs : xs.Nodup := (List.nodup_cons.mp hnd).2
    rw [orphanLoop_cons]
    refine ih _ hndxs ?_ ?_ ?_ ?_
    · intro n hn
      have hne : nm ≠ n := fun hc => hnin (by rw [hc]; exact hn)
      simp only [stateExitedSurrogate]
      rw [lastSetOnExit_concat_ne _ _ _ _ hne]
      exact hfresh n (List.mem_cons_of_mem _ hn)
    · intro n hn
      have hne : n ≠ nm := fun hc => hnin (by rw [← hc]; exact hn)
      simp only [stateExitedSurrogate, setOnExitH_onExit, Function.update_apply, if_neg hne]
      exact hcur n (List.mem_cons_of_mem _ hn)
    · intro n
      simp only [stateExitedSurrogate]
      rw [runRestoreFns_onEnter, lastSetOnEnter_concat_x]
      simp only [setOnExitH_onEnter]
      rw [← runRestoreFns_onEnter]
      exact hInvE n
    · intro n
      simp only [stateExitedSurrogate]
      rw [runRestoreFns_onExit]
      by_cases hn : n = nm
      · subst hn
        rw [lastSetOnExit_concat_eq]
        simpa using hcur _ (List.mem_cons_self _ _)
      · have hne : nm ≠ n := fun hc => hn hc.symm
        rw [lastSetOnExit_concat_ne _ _ _ _ hne]
        simp only [setOnExitH_onExit, Function.update_apply, if_neg hn]
        rw [← runRestoreFns_onExit]
        exact hInvX n

/-! ## Build-level stability and restore lemmas -/

theorem buildEnterAcc_sys (st : StickyTransitions) (toName fromName : String) (s0 : Sys) :
    (buildEnterAcc st toName fromName s0).sys.onExit = s0.onExit ∧
    (buildEnterAcc st toName fromName s0).sys.paths = s0.paths ∧
    (buildEnterAcc st toName fromName s0).sys.locals = s0.locals ∧
    (buildEnterAcc st toName fromName s0).sys.localsEntries = s0.localsEntries ∧
    (buildEnterAcc st toName fromName s0).sys.inactiveLocals
      = refreshInactiveLocals s0 st.inactives ∧
    (buildEnterAcc st toName fromName s0).sys.inactiveStates = s0.inactiveStates ∧
    (buildEnterAcc st toName fromName s0).sys.pendingTransitions = s0.pendingTransitions ∧
    (buildEnterAcc st toName fromName s0).sys.pendingRestore = s0.pendingRestore ∧
    (buildEnterAcc st toName fromName s0).sys.restores = s0.restores ∧
    (buildEnterAcc st toName fromName s0).sys.status = s0.status := by
  have h := enterLoop_sys_stable (st.enter.zip (s0.paths toName))
    ⟨(s0.paths toName).take st.keep, (s0.paths fromName).take st.keep, [], none,
      { s0 with inactiveLocals := refreshInactiveLocals s0 st.inactives }, []⟩
  exact ⟨h.1, h.2.1, h.2.2.1, h.2.2.2.1, h.2.2.2.2.1, h.2.2.2.2.2.1, h.2.2.2.2.2.2.1,
    h.2.2.2.2.2.2.2.1, h.2.2.2.2.2.2.2.2.1, h.2.2.2.2.2.2.2.2.2⟩

theorem buildExitAcc_sys (st : StickyTransitions) (toName fromName : String) (s0 : Sys) :
    (buildExitAcc st toName fromName s0).sys.onEnter
      = (buildEnterAcc st toName fromName s0).sys.onEnter ∧
    (buildExitAcc st toName fromName s0).sys.paths = s0.paths ∧
    (buildExitAcc st toName fromName s0).sys.locals = s0.locals ∧
    (buildExitAcc st toName fromName s0).sys.localsEntries = s0.localsEntries ∧
    (buildExitAcc st toName fromName s0).sys.inactiveLocals
      = refreshInactiveLocals s0 st.inactives ∧
    (buildExitAcc st toName fromName s0).sys.inactiveStates = s0.inactiveStates ∧
    (buildExitAcc st toName fromName s0).sys.pendingTransitions = s0.pendingTransitions ∧
    (buildExitAcc st toName fromName s0).sys.pendingRestore = s0.pendingRestore ∧
    (buildExitAcc st toName fromName s0).sys.restores = s0.restores ∧
    (buildExitAcc st toName fromName s0).sys.status = s0.status := by
  have hb := buildEnterAcc_sys st toName fromName s0
  have h := exitLoop_sys_stable (st.exit.zip (s0.paths fromName))
    ⟨(buildEnterAcc st toName fromName s0).fromP, [],
      (buildEnterAcc st toName fromName s0).sys, (buildEnterAcc st toName fromName s0).rfns⟩
  exact ⟨h.1, h.2.1.trans hb.2.1, h.2.2.1.trans hb.2.2.1, h.2.2.2.1.trans hb.2.2.2.1,
    h.2.2.2.2.1.trans hb.2.2.2.2.1, h.2.2.2.2.2.1.trans hb.2.2.2.2.2.1,
    h.2.2.2.2.2.2.1.trans hb.2.2.2.2.2.2.1, h.2.2.2.2.2.2.2.1.trans hb.2.2.2.2.2.2.2.1,
    h.2.2.2.2.2.2.2.2.1.trans hb.2.2.2.2.2.2.2.2.1,
    h.2.2.2.2.2.2.2.2.2.trans hb.2.2.2.2.2.2.2.2.2⟩

theorem buildSurrogates_sys (st : StickyTransitions) (toName fromName : String) (s0 : Sys) :
    (buildSurrogates st toName fromName s0).sys.paths = s0.paths ∧
    (buildSurrogates st toName fromName s0).sys.locals = s0.locals ∧
    (buildSurrogates st toName fromName s0).sys.localsEntries = s0.localsEntries ∧
    (buildSurrogates st toName fromName s0).sys.inactiveLocals
      = refreshInactiveLocals s0 st.inactives ∧
    (buildSurrogates st toName fromName s0).sys.inactiveStates = s0.inactiveStates ∧
    (buildSurrogates st toName fromName s0).sys.pendingTransitions = s0.pendingTransitions ∧
    (buildSurrogates st toName fromName s0).sys.pendingRestore = s0.pendingRestore ∧
    (buildSurrogates st toName fromName s0).sys.restores = s0.restores ∧
    (buildSurrogates st toName fromName s0).sys.status = s0.status := by
  have hx := buildExitAcc_sys st toName fromName s0
  by_cases hterm : (buildEnterAcc st toName fromName s0).terminal = some toName
  · have h := orphanLoop_sys_stable
      (orphanNames toName (buildExitAcc st toName fromName s0).sys.inactiveStates)
      (buildExitAcc st toName fromName s0)
    have hb : buildSurrogates st toName fromName s0
        = { toP := (buildEnterAcc st toName fromName s0).toP
              ++ (buildEnterAcc st toName fromName s0).reacts.map PathElem.surrogate
            fromP := (orphanLoop
              (orphanNames toName (buildExitAcc st toName fromName s0).sys.inactiveStates)
              (buildExitAcc st toName fromName s0)).fromP
            exited := (orphanLoop
              (orphanNames toName (buildExitAcc st toName fromName s0).sys.inactiveStates)
              (buildExitAcc st toName fromName s0)).exited
              ++ orphanNames toName (buildExitAcc st toName fromName s0).sys.inactiveStates
            sys := (orphanLoop
              (orphanNames toName (buildExitAcc st toName fromName s0).sys.inactiveStates)
              (buildExitAcc st toName fromName s0)).sys
            rfns := (orphanLoop
              (orphanNames toName (buildExitAcc st toName fromName s0).sys.inactiveStates)
              (buildExitAcc st toName fromName s0)).rfns } := by
      simp only [buildSurrogates]
      rw [if_pos hterm]
    rw [hb]
    exact ⟨h.2.1.trans hx.2.1, h.2.2.1.trans hx.2.2.1, h.2.2.2.1.trans hx.2.2.2.1,
      h.2.2.2.2.1.trans hx.2.2.2.2.1, h.2.2.2.2.2.1.trans hx.2.2.2.2.2.1,
      h.2.2.2.2.2.2.1.trans hx.2.2.2.2.2.2.1, h.2.2.2.2.2.2.2.1.trans hx.2.2.2.2.2.2.2.1,
      h.2.2.2.2.2.2.2.2.1.trans hx.2.2.2.2.2.2.2.2.1,
      h.2.2.2.2.2.2.2.2.2.trans hx.2.2.2.2.2.2.2.2.2⟩
  · have hb : buildSurrogates st toName fromName s0
        = { toP := (buildEnterAcc st toName fromName s0).toP
              ++ (buildEnterAcc st toName fromName s0).reacts.map PathElem.surrogate
            fromP := (buildExitAcc st toName fromName s0).fromP
            exited := (buildExitAcc st toName fromName s0).exited
            sys := (buildExitAcc st toName fromName s0).sys
            rfns := (buildExitAcc st toName fromName s0).rfns } := by
      simp only [buildSurrogates]
      rw [if_neg hterm]
    rw [hb]
    exact ⟨hx.2.1, hx.2.2.1, hx.2.2.2.1, hx.2.2.2.2.1, hx.2.2.2.2.2.1, hx.2.2.2.2.2.2.1,
      hx.2.2.2.2.2.2.2.1, hx.2.2.2.2.2.2.2.2.1, hx.2.2.2.2.2.2.2.2.2⟩

theorem buildSurrogates_restore (st : StickyTransitions) (toName fromName : String) (s0 : Sys)
    (hed : (enterTargets (st.enter.zip (s0.paths toName))).Nodup)
    (hxd : (exitTargets (st.exit.zip (s0.paths fromName))
        ++ orphanNames toName s0.inactiveStates).Nodup) :
    (∀ n, (runRestoreFns (buildSurrogates st toName fromName s0).rfns
        (buildSurrogates st toName fromName s0).sys).onEnter n = s0.onEnter n) ∧
    (∀ n, (runRestoreFns (buildSurrogates st toName fromName s0).rfns
        (buildSurrogates st toName fromName s0).sys).onExit n = s0.onExit n) := by
  rw [List.nodup_append] at hxd
  obtain ⟨hx1, ho1, hdisj⟩ := hxd
  have hea := enterLoop_restore (st.enter.zip (s0.paths toName))
    ⟨(s0.paths toName).take st.keep, (s0.paths fromName).take st.keep, [], none,
      { s0 with inactiveLocals := refreshInactiveLocals s0 st.inactives }, []⟩ s0
    hed (fun n _ => rfl) (fun n _ => rfl) (fun n => rfl) (fun n => rfl)
  have hestab := buildEnterAcc_sys st toName fromName s0
  have hxa := exitLoop_restore (st.exit.zip (s0.paths fromName))
    ⟨(buildEnterAcc st toName fromName s0).fromP, [],
      (buildEnterAcc st toName fromName s0).sys, (buildEnterAcc st toName fromName s0).rfns⟩ s0
    hx1
    (fun n _ => by
      have h0 : lastSetOnExit (buildEnterAcc st toName fromName s0).rfns n
          = lastSetOnExit ([] : List RestoreFn) n := enterLoop_lastSetOnExit _ _ n
      exact h0)
    (fun n _ => congrFun hestab.1 n)
    hea.1 hea.2
  have hxstab := buildExitAcc_sys st toName fromName s0
  by_cases hterm : (buildEnterAcc st toName fromName s0).terminal = some toName
  · have horphEq : orphanNames toName (buildExitAcc st toName fromName s0).sys.inactiveStates
        = orphanNames toName s0.inactiveStates := by rw [hxstab.2.2.2.2.2.1]
    have hoa := orphanLoop_restore
      (orphanNames toName (buildExitAcc st toName fromName s0).sys.inactiveStates)
      (buildExitAcc st toName fromName s0) s0
      (by rw [horphEq]; exact ho1)
      (fun n hn => by
        rw [horphEq] at hn
        have hnx : n ∉ exitTargets (st.exit.zip (s0.paths fromName)) :=
          fun hc => (List.disjoint_right.mp hdisj hn) hc
        have h1 : lastSetOnExit (buildExitAcc st toName fromName s0).rfns n
            = lastSetOnExit (buildEnterAcc st toName fromName s0).rfns n :=
          exitLoop_lastSetOnExit_stable _ _ n hnx
        have h2 : lastSetOnExit (buildEnterAcc st toName fromName s0).rfns n = none :=
          enterLoop_lastSetOnExit _ _ n
        rw [h1]
        exact h2)
      (fun n hn => by
        rw [horphEq] at hn
        have hnx : n ∉ exitTargets (st.exit.zip (s0.paths fromName)) :=
          fun hc => (List.disjoint_right.mp hdisj hn) hc
        have h1 : (buildExitAcc st toName fromName s0).sys.onExit n
            = (buildEnterAcc st toName fromName s0).sys.onExit n :=
          exitLoop_onExit_stable _ _ n hnx
        rw [h1]
        exact congrFun hestab.1 n)
      hxa.1 hxa.2
    have hb : (buildSurrogates st toName fromName s0).rfns
          = (orphanLoop
            (orphanNames toName (buildExitAcc st toName fromName s0).sys.inactiveStates)
            (buildExitAcc st toName fromName s0)).rfns ∧
        (buildSurrogates st toName fromName s0).sys
          = (orphanLoop
            (orphanNames toName (buildExitAcc st toName fromName s0).sys.inactiveStates)
            (buildExitAcc st toName fromName s0)).sys := by
      constructor <;> (simp only [buildSurrogates]; rw [if_pos hterm])
    rw [hb.1, hb.2]
    exact hoa
  · have hb : (buildSurrogates st toName fromName s0).rfns
          = (buildExitAcc st toName fromName s0).rfns ∧
        (buildSurrogates st toName fromName s0).sys
          = (buildExitAcc st toName fromName s0).sys := by
      constructor <;> (simp only [buildSurrogates]; rw [if_neg hterm])
    rw [hb.1, hb.2]
    exact hxa

/-! ## runRestoreById case equations and field lemmas -/

theorem restorePaths_misc (r : RestoreState) (s : Sys) :
    (restorePaths r s).onEnter = s.onEnter ∧
    (restorePaths r s).onExit = s.onExit ∧
    (restorePaths r s).locals = s.locals ∧
    (restorePaths r s).localsEntries = s.localsEntries ∧
    (restorePaths r s).inactiveLocals = s.inactiveLocals ∧
    (restorePaths r s).inactiveStates = s.inactiveStates ∧
    (restorePaths r s).pendingTransitions = s.pendingTransitions ∧
    (restorePaths r s).pendingRestore = s.pendingRestore ∧
    (restorePaths r s).restores = s.restores ∧
    (restorePaths r s).status = s.status := by
  cases hto : r.savedToStatePath <;> cases hfrom : r.savedFromStatePath <;>
    refine ⟨?_, ?_, ?_, ?_, ?_, ?_, ?_, ?_, ?_, ?_⟩ <;> simp [restorePaths, hto, hfrom]

theorem restorePaths_paths_other (r : RestoreState) (s : Sys) (n : String)
    (h1 : n ≠ r.toName) (h2 : n ≠ r.fromName) :
    (restorePaths r s).paths n = s.paths n := by
  cases hto : r.savedToStatePath <;> cases hfrom : r.savedFromStatePath <;>
    simp [restorePaths, hto, hfrom, Function.update_apply, h1, h2]

theorem runRestoreById_none (rid : Nat) (s : Sys) (hr : s.restores[rid]? = none) :
    runRestoreById rid s = s := by
  rw [runRestoreById, hr]

theorem runRestoreById_done (rid : Nat) (s : Sys) (r : RestoreState)
    (hr : s.restores[rid]? = some r) (hd : r.done = true) :
    runRestoreById rid s = s := by
  rw [runRestoreById, hr]
  exact if_pos hd

theorem runRestoreById_eq (rid : Nat) (s : Sys) (r : RestoreState)
    (hr : s.restores[rid]? = some r) (hd : r.done = false) :
    runRestoreById rid s =
      { runRestoreFns r.restoreFunctions (restorePaths r s) with
          restores := (runRestoreFns r.restoreFunctions (restorePaths r s)).restores.set rid
            { r with done := true, savedToStatePath := none, savedFromStatePath := none }
          pendingRestore := none
          pendingTransitions :=
            splice (runRestoreFns r.restoreFunctions (restorePaths r s)).pendingTransitions
              r.idx } := by
  rw [runRestoreById, hr]
  exact if_neg (by simp [hd])

/-- C2: for every transition, invoking its restore action twice has the same
observable effect on the whole system state (state tree, hook slots, pending
list, pending-restore slot) as invoking it once; after the first invocation
the closure has been latched (`restore = noop`, `pendingRestore = null`), so
every subsequent invocation is a no-op. -/
theorem restore_idempotent (rid : Nat) (s : Sys) :
    runRestoreById rid (runRestoreById rid s) = runRestoreById rid s := by
  cases hr : s.restores[rid]? with
  | none =>
    have h1 := runRestoreById_none rid s hr
    rw [h1]
    exact h1
  | some r =>
    by_cases hd : r.done = true
    · have h1 := runRestoreById_done rid s r hr hd
      rw [h1]
      exact h1
    · have hd2 : r.done = false := by
        cases hb : r.done
        · rfl
        · exact absurd hb hd
      have hlt : rid < s.restores.length := lt_of_getq hr
      have hres : (runRestoreById rid s).restores[rid]?
          = some { r with done := true, savedToStatePath := none, savedFromStatePath := none } := by
        rw [runRestoreById_eq rid s r hr hd2]
        have hrs : (runRestoreFns r.restoreFunctions (restorePaths r s)).restores
            = s.restores := by
          rw [(runRestoreFns_misc _ _).2.2.2.2.2.2.1, (restorePaths_misc _ _).2.2.2.2.2.2.2.2.1]
        show ((runRestoreFns r.restoreFunctions (restorePaths r s)).restores.set rid _)[rid]?
          = some _
        rw [hrs]
        exact getq_set_self _ _ _ hlt
      exact runRestoreById_done rid (runRestoreById rid s) _ hres rfl

/-- C4: on every settlement of the delegated engine call, the rollback is
applied to the system before the outcome is produced, and the outcome itself
is never rewritten: `transitionSuccess` returns the engine's success value
unchanged (after marking it active on the restored system), and
`transitionFailed` re-surfaces the original rejection reason unchanged — the
three sentinel messages only suppress the anomaly report, which is empty for
them, without affecting the re-surfaced reason. -/
theorem settle_preserves_outcome (dbg : Bool) (rid : Nat) (stName : String)
    (err : EngineErr) (s : Sys) :
    (transitionSuccess rid stName s).2 = stName ∧
    (transitionSuccess rid stName s).1 = setStatusS stName "active" (runRestoreById rid s) ∧
    (transitionFailed dbg rid err s).2.1 = err ∧
    (transitionFailed dbg rid err s).1 = runRestoreById rid s ∧
    (err.message ∈ sentinelMessages → (transitionFailed dbg rid err s).2.2 = []) := by
  refine ⟨rfl, rfl, rfl, rfl, fun hmem => ?_⟩
  simp [transitionFailed, hmem]

/-- C10: the exited accumulator receives the state of every from-path index
classified `inactivate` as well as every one classified `exit` (in index
order), followed by the orphaned inactive descendants when the transition
target is the terminal reactivated state — inactivated nodes are recorded as
exited too, not only permanently exited ones. -/
theorem exited_accumulator (st : StickyTransitions) (toName fromName : String) (s0 : Sys) :
    (buildSurrogates st toName fromName s0).exited
      = exitNames (st.exit.zip (s0.paths fromName))
        ++ (if terminalOf (st.enter.zip (s0.paths toName)) none = some toName
            then orphanNames toName s0.inactiveStates else []) ∧
    (∀ op e, (op, e) ∈ st.exit.zip (s0.paths fromName) → op ≠ ExitOp.keep →
      elemName e ∈ (buildSurrogates st toName fromName s0).exited) := by
  have hxstab := buildExitAcc_sys st toName fromName s0
  have hx : (buildExitAcc st toName fromName s0).exited
      = exitNames (st.exit.zip (s0.paths fromName)) := by
    have h := exitLoop_exited (st.exit.zip (s0.paths fromName))
      ⟨(buildEnterAcc st toName fromName s0).fromP, [],
        (buildEnterAcc st toName fromName s0).sys, (buildEnterAcc st toName fromName s0).rfns⟩
    simpa using h
  have hterm' : (buildEnterAcc st toName fromName s0).terminal
      = terminalOf (st.enter.zip (s0.paths toName)) none := by
    have h := enterLoop_terminal (st.enter.zip (s0.paths toName))
      ⟨(s0.paths toName).take st.keep, (s0.paths fromName).take st.keep, [], none,
        { s0 with inactiveLocals := refreshInactiveLocals s0 st.inactives }, []⟩
    exact h
  have hmain : (buildSurrogates st toName fromName s0).exited
      = exitNames (st.exit.zip (s0.paths fromName))
        ++ (if terminalOf (st.enter.zip (s0.paths toName)) none = some toName
            then orphanNames toName s0.inactiveStates else []) := by
    by_cases hterm : (buildEnterAcc st toName fromName s0).terminal = some toName
    · rw [if_pos (hterm' ▸ hterm)]
      have hb : (buildSurrogates st toName fromName s0).exited
          = (orphanLoop
              (orphanNames toName (buildExitAcc st toName fromName s0).sys.inactiveStates)
              (buildExitAcc st toName fromName s0)).exited
            ++ orphanNames toName (buildExitAcc st toName fromName s0).sys.inactiveStates := by
        simp only [buildSurrogates]
        rw [if_pos hterm]
      rw [hb, orphanLoop_exited, hx, hxstab.2.2.2.2.2.1]
    · rw [if_neg (hterm' ▸ hterm)]
      have hb : (buildSurrogates st toName fromName s0).exited
          = (buildExitAcc st toName fromName s0).exited := by
        simp only [buildSurrogates]
        rw [if_neg hterm]
      rw [hb, hx]
      simp
  refine ⟨hmain, fun op e hmem hop => ?_⟩
  rw [hmain]
  apply List.mem_append_left
  simp only [exitNames, List.mem_filterMap]
  exact ⟨(op, e), hmem, by simp [hop]⟩

/-! ## Object-map lemmas and the inactive-locals refresh (C8) -/

theorem objGet_cons (p : String × Nat) (l : List (String × Nat)) (k : String) :
    objGet (p :: l) k = if p.1 == k then some p.2 else objGet l k := by
  by_cases h : p.1 == k <;> simp [objGet, List.find?_cons, h]

theorem objGet_append (l1 l2 : List (String × Nat)) (k : String) :
    objGet (l1 ++ l2) k =
      match objGet l1 k with
      | some v => some v
      | none => objGet l2 k := by
  induction l1 with
  | nil => simp [objGet]
  | cons a l ih =>
    rw [List.cons_append, objGet_cons, objGet_cons]
    by_cases h : a.1 == k <;> simp [h, ih]

theorem objGet_none_of_not_any (l : List (String × Nat)) (k : String)
    (h : l.any (fun p => p.1 == k) = false) : objGet l k = none := by
  induction l with
  | nil => rfl
  | cons a l ih =>
    simp only [List.any_cons, Bool.or_eq_false_iff] at h
    rw [objGet_cons, if_neg (by simp [h.1]), ih h.2]

theorem objGet_map_set_other (l : List (String × Nat)) (k : String) (v : Nat) (k' : String)
    (h : k' ≠ k) :
    objGet (l.map (fun p => if p.1 == k then (k, v) else p)) k' = objGet l k' := by
  induction l with
  | nil => rfl
  | cons a l ih =>
    rw [List.map_cons]
    by_cases hak : a.1 == k
    · rw [if_pos hak, objGet_cons, objGet_cons, ih]
      have hak' : a.1 = k := by simpa using hak
      have hkk' : ¬k = k' := fun hc => h hc.symm
      have h1 : (k == k') = false := by simp [hkk']
      have h2 : (a.1 == k') = false := by simp [hak', hkk']
      rw [h1, h2]
      simp
    · rw [if_neg hak, objGet_cons, objGet_cons, ih]

theorem objGet_map_set_self (l : List (String × Nat)) (k : String) (v : Nat)
    (hmem : l.any (fun p => p.1 == k) = true) :
    objGet (l.map (fun p => if p.1 == k then (k, v) else p)) k = some v := by
  induction l with
  | nil => simp at hmem
  | cons a l ih =>
    rw [List.map_cons]
    by_cases hak : a.1 == k
    · rw [if_pos hak, objGet_cons]
      simp
    · rw [if_neg hak, objGet_cons, if_neg (by simpa using hak)]
      apply ih
      simpa [hak] using hmem

theorem objGet_objSet (l : List (String × Nat)) (k : String) (v : Nat) (k' : String) :
    objGet (objSet l k v) k' = if k' = k then some v else objGet l k' := by
  rw [objSet]
  by_cases hany : l.any (fun p => p.1 == k) = true
  · rw [if_pos hany]
    by_cases hk : k' = k
    · subst hk
      rw [if_pos rfl]
      exact objGet_map_set_self l k' v hany
    · rw [if_neg hk]
      exact objGet_map_set_other l k v k' hk
  · rw [if_neg hany, objGet_append]
    by_cases hk : k' = k
    · subst hk
      have hany2 : l.any (fun p => p.1 == k') = false := by
        cases hb : l.any (fun p => p.1 == k')
        · rfl
        · exact absurd hb hany
      rw [objGet_none_of_not_any l k' hany2, if_pos rfl, objGet_cons]
      simp
    · rw [if_neg hk]
      have hkk' : ¬k = k' := fun hc => hk hc.symm
      have h2 : objGet [(k, v)] k' = none := by
        rw [objGet_cons, if_neg (by simp [hkk'])]
        rfl
      rw [h2]
      cases objGet l k' <;> simp

theorem objGet_stripViewKeys_at (l : List (String × Nat)) (k : String)
    (hk : hasAt k = true) : objGet (stripViewKeys l) k = none := by
  induction l with
  | nil => rfl
  | cons a l ih =>
    rw [stripViewKeys, List.filter_cons]
    by_cases ha : hasAt a.1
    · simp only [ha, Bool.not_true, if_neg]
      exact ih
    · have ha' : (!hasAt a.1) = true := by simp [ha]
      rw [if_pos ha', objGet_cons]
      have hne : (a.1 == k) = false := by
        simp only [beq_eq_false_iff_ne, ne_eq]
        intro hc
        rw [hc] at ha
        exact ha hk
      rw [hne]
      simpa [stripViewKeys] using ih

theorem objGet_stripViewKeys_no (l : List (String × Nat)) (k : String)
    (hk : hasAt k = false) : objGet (stripViewKeys l) k = objGet l k := by
  induction l with
  | nil => rfl
  | cons a l ih =>
    rw [stripViewKeys, List.filter_cons]
    by_cases ha : hasAt a.1
    · simp only [ha, Bool.not_true, if_neg]
      rw [objGet_cons]
      have hne : (a.1 == k) = false := by
        simp only [beq_eq_false_iff_ne, ne_eq]
        intro hc
        rw [hc] at ha
        rw [hk] at ha
        exact Bool.noConfusion ha
      rw [hne]
      simpa [stripViewKeys] using ih
    · have ha' : (!hasAt a.1) = true := by simp [ha]
      rw [if_pos ha', objGet_cons, objGet_cons]
      by_cases h : a.1 == k
      · simp [h]
      · simp only [h, if_neg]
        simpa [stripViewKeys] using ih

theorem objGet_addOwn_no (entries acc : List (String × Nat)) (k : String)
    (hk : hasAt k = false) :
    objGet (addOwnViewLocals entries acc) k = objGet acc k := by
  induction entries generalizing acc with
  | nil => rfl
  | cons kv rest ih =>
    rw [addOwnViewLocals, List.foldl_cons]
    by_cases hkv : hasAt kv.1
    · rw [if_pos hkv]
      have h := ih (objSet acc kv.1 kv.2)
      rw [addOwnViewLocals] at h
      rw [h, objGet_objSet]
      have hne : k ≠ kv.1 := by
        intro hc
        rw [hc] at hk
        rw [hkv] at hk
        exact Bool.noConfusion hk
      rw [if_neg hne]
    · rw [if_neg hkv]
      have h := ih acc
      rw [addOwnViewLocals] at h
      exact h

theorem objGet_addOwn_congr (entries acc1 acc2 : List (String × Nat)) (k : String)
    (h : objGet acc1 k = objGet acc2 k) :
    objGet (addOwnViewLocals entries acc1) k = objGet (addOwnViewLocals entries acc2) k := by
  induction entries generalizing acc1 acc2 with
  | nil => exact h
  | cons kv rest ih =>
    rw [addOwnViewLocals, List.foldl_cons, addOwnViewLocals, List.foldl_cons]
    by_cases hkv : hasAt kv.1
    · rw [if_pos hkv, if_pos hkv]
      have h2 : objGet (objSet acc1 kv.1 kv.2) k = objGet (objSet acc2 kv.1 kv.2) k := by
        rw [objGet_objSet, objGet_objSet]
        by_cases hk : k = kv.1
        · simp [hk]
        · rw [if_neg hk, if_neg hk]
          exact h
      have h3 := ih (objSet acc1 kv.1 kv.2) (objSet acc2 kv.1 kv.2) h2
      rw [addOwnViewLocals, addOwnViewLocals] at h3
      exact h3
    · rw [if_neg hkv, if_neg hkv]
      have h3 := ih acc1 acc2 h
      rw [addOwnViewLocals, addOwnViewLocals] at h3
      exact h3

theorem objGet_addOwn_source (entries acc : List (String × Nat)) (k : String) (v : Nat)
    (h : objGet (addOwnViewLocals entries acc) k = some v) :
    ((k, v) ∈ entries ∧ hasAt k = true) ∨ objGet acc k = some v := by
  induction entries generalizing acc with
  | nil => exact Or.inr h
  | cons kv rest ih =>
    rw [addOwnViewLocals, List.foldl_cons] at h
    by_cases hkv : hasAt kv.1
    · rw [if_pos hkv] at h
      have h2 := ih (objSet acc kv.1 kv.2) (by rw [addOwnViewLocals]; exact h)
      rcases h2 with ⟨hm, hat⟩ | h2
      · exact Or.inl ⟨List.mem_cons_of_mem _ hm, hat⟩
      · rw [objGet_objSet] at h2
        by_cases hk : k = kv.1
        · rw [if_pos hk] at h2
          have hv : kv.2 = v := by injection h2
          refine Or.inl ⟨?_, by rw [hk]; exact hkv⟩
          have : (k, v) = kv := by
            cases kv
            simp only at hk hv
            rw [hk, hv]
          rw [this]
          exact List.mem_cons_self _ _
        · rw [if_neg hk] at h2
          exact Or.inr h2
    · rw [if_neg hkv] at h
      have h2 := ih acc (by rw [addOwnViewLocals]; exact h)
      rcases h2 with ⟨hm, hat⟩ | h2
      · exact Or.inl ⟨List.mem_cons_of_mem _ hm, hat⟩
      · exact Or.inr h2

theorem fold_addOwn_congr (s : Sys) (ina : List String) (acc1 acc2 : List (String × Nat))
    (k : String) (h : objGet acc1 k = objGet acc2 k) :
    objGet (ina.foldl (fun acc nm => addOwnViewLocals (s.localsEntries nm) acc) acc1) k
      = objGet (ina.foldl (fun acc nm => addOwnViewLocals (s.localsEntries nm) acc) acc2) k := by
  induction ina generalizing acc1 acc2 with
  | nil => exact h
  | cons nm rest ih =>
    rw [List.foldl_cons, List.foldl_cons]
    exact ih _ _ (objGet_addOwn_congr _ _ _ _ h)

theorem fold_addOwn_no (s : Sys) (ina : List String) (acc : List (String × Nat))
    (k : String) (hk : hasAt k = false) :
    objGet (ina.foldl (fun acc nm => addOwnViewLocals (s.localsEntries nm) acc) acc) k
      = objGet acc k := by
  induction ina generalizing acc with
  | nil => rfl
  | cons nm rest ih =>
    rw [List.foldl_cons, ih _, objGet_addOwn_no _ _ _ hk]

theorem fold_addOwn_source (s : Sys) (ina : List String) (acc : List (String × Nat))
    (k : String) (v : Nat)
    (h : objGet (ina.foldl (fun acc nm => addOwnViewLocals (s.localsEntries nm) acc) acc) k
      = some v) :
    (∃ nm ∈ ina, (k, v) ∈ s.localsEntries nm ∧ hasAt k = true) ∨
      objGet acc k = some v := by
  induction ina generalizing acc with
  | nil => exact Or.inr h
  | cons nm rest ih =>
    rw [List.foldl_cons] at h
    rcases ih _ h with ⟨nm2, hm, hp⟩ | h2
    · exact Or.inl ⟨nm2, List.mem_cons_of_mem _ hm, hp⟩
    · rcases objGet_addOwn_source _ _ _ _ h2 with ⟨hm, hat⟩ | h3
      · exact Or.inl ⟨nm, List.mem_cons_self _ _, ⟨hm, hat⟩⟩
      · exact Or.inr h3

theorem refresh_congr (s1 s2 : Sys) (ina : List String)
    (h1 : s1.localsEntries = s2.localsEntries) (h2 : s1.inactiveLocals = s2.inactiveLocals) :
    refreshInactiveLocals s1 ina = refreshInactiveLocals s2 ina := by
  rw [refreshInactiveLocals, refreshInactiveLocals, h1, h2]

theorem runRestoreById_sysfields (rid : Nat) (s : Sys) :
    (runRestoreById rid s).locals = s.locals ∧
    (runRestoreById rid s).localsEntries = s.localsEntries ∧
    (runRestoreById rid s).inactiveLocals = s.inactiveLocals ∧
    (runRestoreById rid s).inactiveStates = s.inactiveStates ∧
    (runRestoreById rid s).status = s.status := by
  cases hr : s.restores[rid]? with
  | none => rw [runRestoreById_none rid s hr]; exact ⟨rfl, rfl, rfl, rfl, rfl⟩
  | some r =>
    by_cases hd : r.done = true
    · rw [runRestoreById_done rid s r hr hd]; exact ⟨rfl, rfl, rfl, rfl, rfl⟩
    · have hd2 : r.done = false := by
        cases hb : r.done
        · rfl
        · exact absurd hb hd
      rw [runRestoreById_eq rid s r hr hd2]
      have hf := runRestoreFns_misc r.restoreFunctions (restorePaths r s)
      have hp := restorePaths_misc r s
      exact ⟨hf.1.trans hp.2.2.1, hf.2.1.trans hp.2.2.2.1, hf.2.2.1.trans hp.2.2.2.2.1,
        hf.2.2.2.1.trans hp.2.2.2.2.2.1, hf.2.2.2.2.2.2.2.trans hp.2.2.2.2.2.2.2.2.2⟩

theorem pendingStage_sysfields (s : Sys) :
    (pendingStage s).locals = s.locals ∧
    (pendingStage s).localsEntries = s.localsEntries ∧
    (pendingStage s).inactiveLocals = s.inactiveLocals ∧
    (pendingStage s).inactiveStates = s.inactiveStates ∧
    (pendingStage s).status = s.status := by
  rw [pendingStage]
  cases s.pendingRestore with
  | none => exact ⟨rfl, rfl, rfl, rfl, rfl⟩
  | some rid => exact runRestoreById_sysfields rid s

/-- C8: on every transition attempt with a resolved target, the inactive
pseudo-state's locals map is cleared of every view entry (every key
containing `"@"`) and repopulated with exactly the own-layer view entries of
the states that will be inactive once the transition succeeds, before the
substitute paths are installed: non-view keys are untouched, the value of
every view key is exactly what the repopulation from `inactives` alone
produces (so no stale view entry survives), every repopulated entry comes
from some inactive state's own locals, and the map installed by the decorated
transition is exactly this refreshed map. -/
theorem inactive_locals_refresh (inp : TInput) (s : Sys) (k : String) :
    (hasAt k = false →
      objGet (refreshInactiveLocals s inp.st.inactives) k = objGet s.inactiveLocals k) ∧
    (hasAt k = true →
      objGet (refreshInactiveLocals s inp.st.inactives) k
        = objGet (populateInactiveViews s inp.st.inactives) k) ∧
    (∀ v, objGet (populateInactiveViews s inp.st.inactives) k = some v →
      ∃ nm ∈ inp.st.inactives, (k, v) ∈ s.localsEntries nm ∧ hasAt k = true) ∧
    (inp.toFound = true →
      ((transitionTo inp s).1).inactiveLocals = refreshInactiveLocals s inp.st.inactives) := by
  refine ⟨fun hk => ?_, fun hk => ?_, fun v hv => ?_, fun hf => ?_⟩
  · rw [refreshInactiveLocals, fold_addOwn_no s _ _ _ hk, objGet_stripViewKeys_no _ _ hk]
  · rw [refreshInactiveLocals, populateInactiveViews]
    exact fold_addOwn_congr s _ _ _ k
      (by rw [objGet_stripViewKeys_at _ _ hk]; rfl)
  · rw [populateInactiveViews] at hv
    rcases fold_addOwn_source s _ _ _ _ hv with h | h
    · exact h
    · exact absurd h (by simp [objGet])
  · rw [transitionTo, if_pos hf]
    show (installedSys inp s).inactiveLocals = _
    have h1 : (installedSys inp s).inactiveLocals = (buildOf inp s).sys.inactiveLocals := rfl
    have h2 := (buildSurrogates_sys inp.st inp.toName inp.fromName (acceptedSys inp s)).2.2.2.1
    rw [h1]
    show (buildSurrogates inp.st inp.toName inp.fromName (acceptedSys inp s)).sys.inactiveLocals = _
    rw [h2]
    apply refresh_congr
    · show (pendingStage s).localsEntries = s.localsEntries
      exact (pendingStage_sysfields s).2.1
    · show (pendingStage s).inactiveLocals = s.inactiveLocals
      exact (pendingStage_sysfields s).2.2.1

/-! ## C3: a new request runs the pending restore before planning -/

theorem acceptedSys_fields (inp : TInput) (s : Sys) :
    (acceptedSys inp s).onEnter = (pendingStage s).onEnter ∧
    (acceptedSys inp s).onExit = (pendingStage s).onExit ∧
    (acceptedSys inp s).paths = (pendingStage s).paths ∧
    (acceptedSys inp s).locals = (pendingStage s).locals ∧
    (acceptedSys inp s).localsEntries = (pendingStage s).localsEntries ∧
    (acceptedSys inp s).inactiveLocals = (pendingStage s).inactiveLocals ∧
    (acceptedSys inp s).inactiveStates = (pendingStage s).inactiveStates ∧
    (acceptedSys inp s).restores = (pendingStage s).restores := by
  exact ⟨rfl, rfl, rfl, rfl, rfl, rfl, rfl, rfl⟩

theorem transitionTo_restores (inp : TInput) (s : Sys) :
    ((transitionTo inp s).1).restores
      = (pendingStage s).restores
        ++ [if inp.toFound then newRestoreState inp s else emptyRestoreState inp s] := by
  by_cases hf : inp.toFound
  · rw [transitionTo, if_pos hf, if_pos hf]
    show (installedSys inp s).restores ++ [newRestoreState inp s] = _
    have h1 : (installedSys inp s).restores = (buildOf inp s).sys.restores := rfl
    have h2 := (buildSurrogates_sys inp.st inp.toName inp.fromName (acceptedSys inp s)).2.2.2.2.2.2.2.1
    rw [h1]
    show (buildSurrogates inp.st inp.toName inp.fromName (acceptedSys inp s)).sys.restores ++ _ = _
    rw [h2]
    rfl
  · rw [transitionTo, if_neg hf, if_neg hf]

theorem transitionTo_paths_other (inp : TInput) (s : Sys) (n : String)
    (h1 : n ≠ inp.toName) (h2 : n ≠ inp.fromName) :
    ((transitionTo inp s).1).paths n = (pendingStage s).paths n := by
  by_cases hf : inp.toFound
  · rw [transitionTo, if_pos hf]
    show (installedSys inp s).paths n = _
    rw [installedSys]
    simp only [setPathS_paths, Function.update_apply, if_neg h1, if_neg h2]
    have h3 := (buildSurrogates_sys inp.st inp.toName inp.fromName (acceptedSys inp s)).1
    show (buildSurrogates inp.st inp.toName inp.fromName (acceptedSys inp s)).sys.paths n = _
    rw [h3]
    rfl
  · rw [transitionTo, if_neg hf]

/-- C3: whenever the decorated transitionTo accepts a new request while a
previous transition's restore is still pending, it executes the pending
restore first — before any planning or substitution: the previous closure is
latched (marked done, saved slots nulled) in the resulting ledger, the saved
path arrays written back by it are the values the new transition then reads
and saves, and every state other than the new transition's own to/from keeps
exactly its post-rollback path, so at most the new transition's substituted
paths are installed on the shared tree. -/
theorem pending_restore_runs_first (inp : TInput) (s : Sys) (rid : Nat) (r : RestoreState)
    (hp : s.pendingRestore = some rid)
    (hr : s.restores[rid]? = some r)
    (hd : r.done = false) :
    pendingStage s = runRestoreById rid s ∧
    ((transitionTo inp s).1).restores[rid]?
      = some { r with done := true, savedToStatePath := none, savedFromStatePath := none } ∧
    (inp.toFound = true →
      (newRestoreState inp s).savedToStatePath
          = some ((runRestoreById rid s).paths inp.toName) ∧
      (newRestoreState inp s).savedFromStatePath
          = some ((runRestoreById rid s).paths inp.fromName)) ∧
    (∀ n, n ≠ inp.toName → n ≠ inp.fromName →
      ((transitionTo inp s).1).paths n = (runRestoreById rid s).paths n) ∧
    (∀ pf, r.savedFromStatePath = some pf → (runRestoreById rid s).paths r.fromName = pf) ∧
    (∀ pt, r.savedToStatePath = some pt → r.toName ≠ r.fromName →
      (runRestoreById rid s).paths r.toName = pt) := by
  have hps : pendingStage s = runRestoreById rid s := by rw [pendingStage, hp]
  have hlt : rid < s.restores.length := lt_of_getq hr
  have hrestored : (runRestoreById rid s).restores
      = s.restores.set rid
        { r with done := true, savedToStatePath := none, savedFromStatePath := none } := by
    rw [runRestoreById_eq rid s r hr hd]
    show (runRestoreFns r.restoreFunctions (restorePaths r s)).restores.set rid _ = _
    rw [(runRestoreFns_misc _ _).2.2.2.2.2.2.1, (restorePaths_misc _ _).2.2.2.2.2.2.2.2.1]
  have hpaths : (runRestoreById rid s).paths
      = (restorePaths r s).paths := by
    rw [runRestoreById_eq rid s r hr hd]
    show (runRestoreFns r.restoreFunctions (restorePaths r s)).paths = _
    exact runRestoreFns_paths _ _
  refine ⟨hps, ?_, ?_, ?_, ?_, ?_⟩
  · rw [transitionTo_restores, hps, hrestored]
    rw [getq_append_left _ _ rid (by simpa using hlt)]
    exact getq_set_self _ _ _ (by simpa using hlt)
  · intro hf
    constructor
    · show some ((pendingStage s).paths inp.toName) = _
      rw [hps]
    · show some ((pendingStage s).paths inp.fromName) = _
      rw [hps]
  · intro n h1 h2
    rw [transitionTo_paths_other inp s n h1 h2, hps]
  · intro pf hpf
    rw [hpaths, restorePaths]
    cases hto : r.savedToStatePath <;>
      simp [hpf, Function.update_apply]
  · intro pt hpt hne
    rw [hpaths, restorePaths, hpt]
    cases hfrom : r.savedFromStatePath with
    | none => simp [Function.update_apply]
    | some pf =>
      simp only [setPathS_paths, Function.update_apply, if_neg hne]
      simp [Function.update_apply]

/-! ## C5: restore reinstates the saved paths and hooks verbatim -/

/-- C5: for a transition in which substitution occurred, the original
`toState.path` and `fromState.path` arrays are saved verbatim in the restore
closure before the substitutes are installed, and running the restore step
reinstates exactly those saved arrays and every saved original
onEnter/onExit hook reference — every state's path and hook slots are back to
their pre-transition values, so no surrogate remains reachable from any real
state's path after restore. -/
theorem restore_reinstates_originals (inp : TInput) (s : Sys)
    (hf : inp.toFound = true)
    (hp : s.pendingRestore = none)
    (hed : (enterTargets (inp.st.enter.zip (s.paths inp.toName))).Nodup)
    (hxd : (exitTargets (inp.st.exit.zip (s.paths inp.fromName))
        ++ orphanNames inp.toName s.inactiveStates).Nodup) :
    (∃ r, ((transitionTo inp s).1).restores[(transitionTo inp s).2]? = some r ∧
      r.savedToStatePath = some (s.paths inp.toName) ∧
      r.savedFromStatePath = some (s.paths inp.fromName)) ∧
    (∀ n, (runRestoreById (transitionTo inp s).2 (transitionTo inp s).1).paths n = s.paths n) ∧
    (∀ n, (runRestoreById (transitionTo inp s).2 (transitionTo inp s).1).onEnter n
      = s.onEnter n) ∧
    (∀ n, (runRestoreById (transitionTo inp s).2 (transitionTo inp s).1).onExit n
      = s.onExit n) ∧
    (∀ n, (∀ x ∈ s.paths n, isReal x = true) →
      ∀ x ∈ (runRestoreById (transitionTo inp s).2 (transitionTo inp s).1).paths n,
        isReal x = true) := by
  have hps : pendingStage s = s := by rw [pendingStage, hp]
  -- the result of the decorated call
  have ht1 : (transitionTo inp s).1
      = { installedSys inp s with
          restores := (installedSys inp s).restores ++ [newRestoreState inp s] } := by
    rw [transitionTo, if_pos hf]
  have ht2 : (transitionTo inp s).2 = s.restores.length := by
    rw [transitionTo, if_pos hf, hps]
  -- the ledger contains the new restore record at the returned handle
  have hreseq : ((transitionTo inp s).1).restores = s.restores ++ [newRestoreState inp s] := by
    rw [transitionTo_restores, if_pos hf, hps]
  have hlook : ((transitionTo inp s).1).restores[(transitionTo inp s).2]?
      = some (newRestoreState inp s) := by
    rw [hreseq, ht2]
    exact getq_concat_self _ _
  -- the saved arrays are the pre-call ones
  have hsavT : (newRestoreState inp s).savedToStatePath = some (s.paths inp.toName) := by
    show some ((pendingStage s).paths inp.toName) = _
    rw [hps]
  have hsavF : (newRestoreState inp s).savedFromStatePath = some (s.paths inp.fromName) := by
    show some ((pendingStage s).paths inp.fromName) = _
    rw [hps]
  -- hook equalities of the build input
  have haccE : (acceptedSys inp s).onEnter = s.onEnter := by
    show (pendingStage s).onEnter = s.onEnter
    rw [hps]
  have haccX : (acceptedSys inp s).onExit = s.onExit := by
    show (pendingStage s).onExit = s.onExit
    rw [hps]
  have haccP : (acceptedSys inp s).paths = s.paths := by
    show (pendingStage s).paths = s.paths
    rw [hps]
  have haccI : (acceptedSys inp s).inactiveStates = s.inactiveStates := by
    show (pendingStage s).inactiveStates = s.inactiveStates
    rw [hps]
  -- the hook-restoration engine
  have hrest := buildSurrogates_restore inp.st inp.toName inp.fromName (acceptedSys inp s)
    (by rw [haccP]; exact hed) (by rw [haccP, haccI]; exact hxd)
  -- run the restore on the transition result
  have hd0 : (newRestoreState inp s).done = false := rfl
  have hrun := runRestoreById_eq (transitionTo inp s).2 (transitionTo inp s).1
    (newRestoreState inp s) hlook hd0
  -- the path-restoration step
  have hrp : restorePaths (newRestoreState inp s) ((transitionTo inp s).1)
      = setPathS inp.fromName ((pendingStage s).paths inp.fromName)
          (setPathS inp.toName ((pendingStage s).paths inp.toName)
            ((transitionTo inp s).1)) := rfl
  -- paths of the restored system
  have hpaths : ∀ n,
      (runRestoreById (transitionTo inp s).2 (transitionTo inp s).1).paths n = s.paths n := by
    intro n
    rw [hrun]
    show (runRestoreFns (newRestoreState inp s).restoreFunctions
      (restorePaths (newRestoreState inp s) ((transitionTo inp s).1))).paths n = _
    rw [runRestoreFns_paths, hrp]
    by_cases h2 : n = inp.fromName
    · subst h2
      rw [hps]
      simp [Function.update_apply]
    · simp only [setPathS_paths, Function.update_apply, if_neg h2]
      by_cases h1 : n = inp.toName
      · subst h1
        rw [if_pos rfl, hps]
      · rw [if_neg h1]
        show ((transitionTo inp s).1).paths n = s.paths n
        rw [transitionTo_paths_other inp s n h1 h2, hps]
  -- hooks of the restored system
  have hhooksys : ∀ n,
      (restorePaths (newRestoreState inp s) ((transitionTo inp s).1)).onEnter n
        = (buildOf inp s).sys.onEnter n ∧
      (restorePaths (newRestoreState inp s) ((transitionTo inp s).1)).onExit n
        = (buildOf inp s).sys.onExit n := by
    intro n
    constructor
    · rw [(restorePaths_misc _ _).1, ht1]
      rfl
    · rw [(restorePaths_misc _ _).2.1, ht1]
      rfl
  have honEnter : ∀ n,
      (runRestoreById (transitionTo inp s).2 (transitionTo inp s).1).onEnter n
        = s.onEnter n := by
    intro n
    rw [hrun]
    show (runRestoreFns (newRestoreState inp s).restoreFunctions
      (restorePaths (newRestoreState inp s) ((transitionTo inp s).1))).onEnter n = _
    rw [runRestoreFns_onEnter, (hhooksys n).1]
    have h := hrest.1 n
    rw [runRestoreFns_onEnter] at h
    show (lastSetOnEnter (buildOf inp s).rfns n).getD ((buildOf inp s).sys.onEnter n) = _
    rw [← haccE]
    exact h
  have honExit : ∀ n,
      (runRestoreById (transitionTo inp s).2 (transitionTo inp s).1).onExit n
        = s.onExit n := by
    intro n
    rw [hrun]
    show (runRestoreFns (newRestoreState inp s).restoreFunctions
      (restorePaths (newRestoreState inp s) ((transitionTo inp s).1))).onExit n = _
    rw [runRestoreFns_onExit, (hhooksys n).2]
    have h := hrest.2 n
    rw [runRestoreFns_onExit] at h
    show (lastSetOnExit (buildOf inp s).rfns n).getD ((buildOf inp s).sys.onExit n) = _
    rw [← haccX]
    exact h
  refine ⟨⟨newRestoreState inp s, hlook, hsavT, hsavF⟩, hpaths, honEnter, honExit, ?_⟩
  intro n hreal x hx
  rw [hpaths n] at hx
  exact hreal x hx

/-! ## C1 support: phase-1 / phase-2 reactivation surrogates -/

/-- Whether a path element is a surrogate for the state named `nm`. -/
def isSurrNamed (nm : String) : PathElem → Bool
  | .surrogate su => su.selfName == nm
  | .real _ => false

/-- The number of surrogates for state `nm` in a path array. -/
def surrCountNamed (nm : String) (l : List PathElem) : Nat :=
  (l.filter (isSurrNamed nm)).length

theorem surrCountNamed_append (nm : String) (l1 l2 : List PathElem) :
    surrCountNamed nm (l1 ++ l2) = surrCountNamed nm l1 + surrCountNamed nm l2 := by
  simp [surrCountNamed, List.filter_append]

theorem surrCountNamed_real_zero (nm : String) (l : List PathElem)
    (hl : ∀ x ∈ l, isReal x = true) : surrCountNamed nm l = 0 := by
  rw [surrCountNamed, List.length_eq_zero, List.filter_eq_nil_iff]
  intro x hx
  cases x with
  | real m => simp [isSurrNamed]
  | surrogate su => exact absurd (hl _ hx) (by simp [isReal])

/-- The reactivate classifications of the plan that target state `nm`. -/
def reactNamedCount (nm : String) (l : List (EnterOp × PathElem)) : Nat :=
  (l.filter (fun pr => pr.1 == EnterOp.reactivate && elemName pr.2 == nm)).length

theorem enterLoop_reacts_mono (l : List (EnterOp × PathElem)) (a : EnterAcc)
    (su : SurrogateState) (h : su ∈ a.reacts) : su ∈ (enterLoop l a).reacts := by
  induction l generalizing a with
  | nil => exact h
  | cons x xs ih =>
    obtain ⟨op, e⟩ := x
    refine ih _ ?_
    cases op with
    | reactivate => exact List.mem_append_left _ h
    | updateStateParams => exact h
    | enter => exact h
    | keep => exact h

theorem enterStep_locals (a : EnterAcc) (x : EnterOp × PathElem) :
    (enterStep a x).sys.locals = a.sys.locals := by
  rcases enterStep_hooks a x with ⟨_, heq⟩ | ⟨_, w, hsys, _⟩
  · rw [heq]
  · rw [hsys]; simp

/-- Inside the enter loop, a `reactivate` classification preceded only by
`reactivate` or `keep` classifications pushes its phase-1 surrogate at the
same index of the substitute to-path and from-path. -/
theorem enterLoop_reactivate_phase1 (l2 : List (EnterOp × PathElem)) (e : PathElem) :
    ∀ (l1 : List (EnterOp × PathElem)) (a : EnterAcc),
    (∀ pr ∈ l1, pr.1 = EnterOp.reactivate ∨ pr.1 = EnterOp.keep) →
    a.toP.length = a.fromP.length →
    ∃ (p : Nat) (su : SurrogateState),
      (enterLoop (l1 ++ (EnterOp.reactivate, e) :: l2) a).toP[p]?
        = some (PathElem.surrogate su) ∧
      (enterLoop (l1 ++ (EnterOp.reactivate, e) :: l2) a).fromP[p]?
        = some (PathElem.surrogate su) ∧
      su.surrogateType = "reactivate_phase1" ∧
      su.selfName = elemName e ∧
      su.locals = some (a.sys.locals (elemName e)) := by
  intro l1
  induction l1 with
  | nil =>
    intro a hpre hlen
    rw [List.nil_append, enterLoop]
    set su := stateReactivatedSurrogatePhase1 (elemName e) a.sys with hsu
    refine ⟨a.toP.length, su, ?_, ?_, rfl, rfl, rfl⟩
    · apply enterLoop_toP_getq
      show (a.toP ++ [PathElem.surrogate su])[a.toP.length]? = _
      exact getq_concat_self _ _
    · apply enterLoop_fromP_getq
      show (a.fromP ++ [PathElem.surrogate su])[a.toP.length]? = _
      rw [hlen]
      exact getq_concat_self _ _
  | cons x l1' ih =>
    intro a hpre hlen
    obtain ⟨op, e'⟩ := x
    rw [List.cons_append, enterLoop]
    have hop := hpre (op, e') (List.mem_cons_self _ _)
    have hlen' : (enterStep a (op, e')).toP.length = (enterStep a (op, e')).fromP.length := by
      rcases hop with hop | hop
      · have hop2 : op = EnterOp.reactivate := hop
        subst hop2
        simp [enterStep, hlen]
      · have hop2 : op = EnterOp.keep := hop
        subst hop2
        simp [enterStep, hlen]
    have hloc : (enterStep a (op, e')).sys.locals = a.sys.locals := enterStep_locals _ _
    obtain ⟨p, su, h1, h2, h3, h4, h5⟩ :=
      ih (enterStep a (op, e')) (fun pr hpr => hpre pr (List.mem_cons_of_mem _ hpr)) hlen'
    exact ⟨p, su, h1, h2, h3, h4, by rw [h5, hloc]⟩

/-- Every `reactivate` classification appends a phase-2 surrogate for its
state to the `reactivated` list, with resolve and views blanked and `self`
shared with the real state. -/
theorem enterLoop_reactivate_phase2 (l : List (EnterOp × PathElem)) (a : EnterAcc)
    (e : PathElem) (hmem : (EnterOp.reactivate, e) ∈ l) :
    ∃ su ∈ (enterLoop l a).reacts,
      su.surrogateType = "reactivate_phase2" ∧ su.selfName = elemName e ∧
      su.resolve = none ∧ su.views = none ∧
      su.locals = some (a.sys.locals (elemName e)) ∧ su.selfShared = true := by
  induction l generalizing a with
  | nil => cases hmem
  | cons x xs ih =>
    rcases List.mem_cons.mp hmem with heq | htail
    · subst heq
      rw [enterLoop]
      refine ⟨(stateReactivatedSurrogatePhase2 (elemName e) a.sys).1, ?_, rfl, rfl, rfl, rfl,
        rfl, rfl⟩
      apply enterLoop_reacts_mono
      show _ ∈ a.reacts ++ [_]
      exact List.mem_append_right _ (List.mem_cons_self _ _)
    · rw [enterLoop]
      obtain ⟨su, hsu, h1, h2, h3, h4, h5, h6⟩ := ih (enterStep a x) htail
      exact ⟨su, hsu, h1, h2, h3, h4, by rw [h5, enterStep_locals], h6⟩

/-- After a `reactivate` classification whose state is not re-wrapped by any
later classification, the real state's `onEnter` slot holds the phase-2
wrapper when the loop finishes. -/
theorem enterLoop_phase2_wrapper (l2 : List (EnterOp × PathElem)) (e : PathElem)
    (hlast : ∀ pr ∈ l2, pr.1 ≠ EnterOp.keep → elemName pr.2 ≠ elemName e) :
    ∀ (l1 : List (EnterOp × PathElem)) (a : EnterAcc),
    (enterLoop (l1 ++ (EnterOp.reactivate, e) :: l2) a).sys.onEnter (elemName e)
      = Hook.reactivate2Wrap (elemName e) := by
  intro l1
  induction l1 with
  | nil =>
    intro a
    rw [List.nil_append, enterLoop]
    have hnin : elemName e ∉ enterTargets l2 := by
      intro hc
      simp only [enterTargets, List.mem_filterMap] at hc
      obtain ⟨pr, hpr, hif⟩ := hc
      by_cases hk : pr.1 = EnterOp.keep
      · rw [if_pos hk] at hif
        cases hif
      · rw [if_neg hk] at hif
        exact hlast pr hpr hk (by injection hif)
    rw [enterLoop_onEnter_stable _ _ _ hnin]
    show (setOnEnterH (elemName e) (Hook.reactivate2Wrap (elemName e)) a.sys).onEnter
      (elemName e) = _
    simp [Function.update_apply]
  | cons x l1' ih =>
    intro a
    rw [List.cons_append, enterLoop]
    exact ih (enterStep a x)

theorem enterLoop_count (l : List (EnterOp × PathElem)) (a : EnterAcc) (nm : String)
    (hreal : ∀ pr ∈ l, isReal pr.2 = true) :
    surrCountNamed nm (enterLoop l a).toP
      + surrCountNamed nm ((enterLoop l a).reacts.map PathElem.surrogate)
    = surrCountNamed nm a.toP + surrCountNamed nm (a.reacts.map PathElem.surrogate)
      + 2 * reactNamedCount nm l := by
  induction l generalizing a with
  | nil => simp [enterLoop, reactNamedCount]
  | cons x xs ih =>
    obtain ⟨op, e⟩ := x
    have hih := ih (enterStep a (op, e)) (fun pr hpr => hreal pr (List.mem_cons_of_mem _ hpr))
    rw [enterLoop, hih]
    have hereal : isReal e = true := hreal (op, e) (List.mem_cons_self _ _)
    cases op with
    | reactivate =>
      have hstep1 : (enterStep a (EnterOp.reactivate, e)).toP
          = a.toP ++ [PathElem.surrogate
              (stateReactivatedSurrogatePhase1 (elemName e) a.sys)] := rfl
      have hstep2 : (enterStep a (EnterOp.reactivate, e)).reacts
          = a.reacts ++ [(stateReactivatedSurrogatePhase2 (elemName e) a.sys).1] := rfl
      rw [hstep1, hstep2, surrCountNamed_append, List.map_append, surrCountNamed_append]
      have hcount : reactNamedCount nm ((EnterOp.reactivate, e) :: xs)
          = (if elemName e = nm then 1 else 0) + reactNamedCount nm xs := by
        rw [reactNamedCount, List.filter_cons]
        by_cases hnm : elemName e = nm
        · rw [if_pos (by simp [hnm])]
          simp [reactNamedCount, hnm, Nat.add_comm]
        · rw [if_neg (by simp [hnm])]
          simp [reactNamedCount, hnm]
      rw [hcount]
      have h1 : surrCountNamed nm [PathElem.surrogate
          (stateReactivatedSurrogatePhase1 (elemName e) a.sys)]
          = if elemName e = nm then 1 else 0 := by
        by_cases hnm : elemName e = nm <;>
          simp [surrCountNamed, isSurrNamed, stateReactivatedSurrogatePhase1,
            mkSurrogateState, hnm]
      have h2 : surrCountNamed nm (List.map PathElem.surrogate
          [(stateReactivatedSurrogatePhase2 (elemName e) a.sys).1])
          = if elemName e = nm then 1 else 0 := by
        by_cases hnm : elemName e = nm <;>
          simp [surrCountNamed, isSurrNamed, stateReactivatedSurrogatePhase2, hnm]
      rw [h1, h2]
      ring
    | updateStateParams =>
      have hstep1 : (enterStep a (EnterOp.updateStateParams, e)).toP = a.toP ++ [e] := rfl
      have hstep2 : (enterStep a (EnterOp.updateStateParams, e)).reacts = a.reacts := rfl
      have hcount : reactNamedCount nm ((EnterOp.updateStateParams, e) :: xs)
          = reactNamedCount nm xs := by
        rw [reactNamedCount, List.filter_cons, if_neg (by simp)]
        rfl
      have hz : surrCountNamed nm [e] = 0 := by
        apply surrCountNamed_real_zero
        intro x hx
        rw [List.mem_singleton] at hx
        rw [hx]
        exact hereal
      rw [hstep1, hstep2, surrCountNamed_append, hcount, hz]
      ring
    | enter =>
      have hstep1 : (enterStep a (EnterOp.enter, e)).toP = a.toP ++ [e] := rfl
      have hstep2 : (enterStep a (EnterOp.enter, e)).reacts = a.reacts := rfl
      have hcount : reactNamedCount nm ((EnterOp.enter, e) :: xs)
          = reactNamedCount nm xs := by
        rw [reactNamedCount, List.filter_cons, if_neg (by simp)]
        rfl
      have hz : surrCountNamed nm [e] = 0 := by
        apply surrCountNamed_real_zero
        intro x hx
        rw [List.mem_singleton] at hx
        rw [hx]
        exact hereal
      rw [hstep1, hstep2, surrCountNamed_append, hcount, hz]
      ring
    | keep =>
      have hcount : reactNamedCount nm ((EnterOp.keep, e) :: xs)
          = reactNamedCount nm xs := by
        rw [reactNamedCount, List.filter_cons, if_neg (by simp)]
        rfl
      rw [hcount]
      rfl

theorem exitLoop_fromP_getq (l : List (ExitOp × PathElem)) (a : ExitAcc) (p : Nat)
    (x : PathElem) (hp : a.fromP[p]? = some x) : (exitLoop l a).fromP[p]? = some x := by
  induction l generalizing a with
  | nil => exact hp
  | cons y xs ih =>
    obtain ⟨op, e⟩ := y
    refine ih _ ?_
    have hlt := lt_of_getq hp
    cases op with
    | inactivate =>
      have he : (exitStep a (ExitOp.inactivate, e)).fromP
          = a.fromP ++ [PathElem.surrogate (stateInactivatedSurrogate (elemName e) a.sys).1] :=
        rfl
      rw [he, getq_append_left _ _ _ hlt]
      exact hp
    | exitState =>
      have he : (exitStep a (ExitOp.exitState, e)).fromP = a.fromP ++ [e] := rfl
      rw [he, getq_append_left _ _ _ hlt]
      exact hp
    | keep => exact hp

theorem buildSurrogates_toP (st : StickyTransitions) (toName fromName : String) (s0 : Sys) :
    (buildSurrogates st toName fromName s0).toP
      = (buildEnterAcc st toName fromName s0).toP
        ++ (buildEnterAcc st toName fromName s0).reacts.map PathElem.surrogate := by
  by_cases hterm : (buildEnterAcc st toName fromName s0).terminal = some toName
  · simp only [buildSurrogates]
    rw [if_pos hterm]
  · simp only [buildSurrogates]
    rw [if_neg hterm]

theorem buildSurrogates_fromP_getq (st : StickyTransitions) (toName fromName : String)
    (s0 : Sys) (p : Nat) (x : PathElem)
    (hp : (buildExitAcc st toName fromName s0).fromP[p]? = some x) :
    (buildSurrogates st toName fromName s0).fromP[p]? = some x := by
  by_cases hterm : (buildEnterAcc st toName fromName s0).terminal = some toName
  · have hb : (buildSurrogates st toName fromName s0).fromP
        = (orphanLoop
            (orphanNames toName (buildExitAcc st toName fromName s0).sys.inactiveStates)
            (buildExitAcc st toName fromName s0)).fromP := by
      simp only [buildSurrogates]
      rw [if_pos hterm]
    rw [hb, orphanLoop_fromP, getq_append_left _ _ _ (lt_of_getq hp)]
    exact hp
  · have hb : (buildSurrogates st toName fromName s0).fromP
        = (buildExitAcc st toName fromName s0).fromP := by
      simp only [buildSurrogates]
      rw [if_neg hterm]
    rw [hb]
    exact hp

theorem buildSurrogates_fromP_mem (st : StickyTransitions) (toName fromName : String)
    (s0 : Sys) (x : PathElem)
    (hx : x ∈ (buildSurrogates st toName fromName s0).fromP) :
    x ∈ (buildExitAcc st toName fromName s0).fromP ∨ ∃ nm, x = PathElem.real nm := by
  by_cases hterm : (buildEnterAcc st toName fromName s0).terminal = some toName
  · have hb : (buildSurrogates st toName fromName s0).fromP
        = (orphanLoop
            (orphanNames toName (buildExitAcc st toName fromName s0).sys.inactiveStates)
            (buildExitAcc st toName fromName s0)).fromP := by
      simp only [buildSurrogates]
      rw [if_pos hterm]
    rw [hb] at hx
    exact orphanLoop_fromP_mem _ _ _ hx
  · have hb : (buildSurrogates st toName fromName s0).fromP
        = (buildExitAcc st toName fromName s0).fromP := by
      simp only [buildSurrogates]
      rw [if_neg hterm]
    rw [hb] at hx
    exact Or.inl hx

theorem buildSurrogates_sys_onEnter (st : StickyTransitions) (toName fromName : String)
    (s0 : Sys) :
    (buildSurrogates st toName fromName s0).sys.onEnter
      = (buildEnterAcc st toName fromName s0).sys.onEnter := by
  have hx := (buildExitAcc_sys st toName fromName s0).1
  by_cases hterm : (buildEnterAcc st toName fromName s0).terminal = some toName
  · have hb : (buildSurrogates st toName fromName s0).sys
        = (orphanLoop
            (orphanNames toName (buildExitAcc st toName fromName s0).sys.inactiveStates)
            (buildExitAcc st toName fromName s0)).sys := by
      simp only [buildSurrogates]
      rw [if_pos hterm]
    rw [hb, (orphanLoop_sys_stable _ _).1, hx]
  · have hb : (buildSurrogates st toName fromName s0).sys
        = (buildExitAcc st toName fromName s0).sys := by
      simp only [buildSurrogates]
      rw [if_neg hterm]
    rw [hb, hx]

/-- C1: a `reactivate` classification produces exactly two surrogates: a
phase-1 surrogate pushed onto both the substitute to-path and the substitute
from-path at the same index (the very same surrogate object, carrying the
state's retained locals reference, so the engine treats it as kept), and a
phase-2 surrogate appended only to the tail of the substitute to-path with
its resolve and views maps blanked, whose installed onEnter wrapper
re-attaches the state's retained locals object reference-identically and then
notifies the registry that the state left the inactive pool; the build never
touches any state's retained locals reference. -/
theorem reactivate_two_surrogates (st : StickyTransitions) (toName fromName : String)
    (s : Sys) (e : PathElem) (l1 l2 : List (EnterOp × PathElem))
    (hsplit : st.enter.zip (s.paths toName) = l1 ++ (EnterOp.reactivate, e) :: l2)
    (hpre : ∀ pr ∈ l1, pr.1 = EnterOp.reactivate ∨ pr.1 = EnterOp.keep)
    (hn1 : ∀ pr ∈ l1, pr.1 ≠ EnterOp.keep → elemName pr.2 ≠ elemName e)
    (hlast : ∀ pr ∈ l2, pr.1 ≠ EnterOp.keep → elemName pr.2 ≠ elemName e)
    (hkT : st.keep ≤ (s.paths toName).length)
    (hkF : st.keep ≤ (s.paths fromName).length)
    (htoReal : ∀ x ∈ s.paths toName, isReal x = true)
    (hfromReal : ∀ x ∈ s.paths fromName, isReal x = true) :
    (∃ (p : Nat) (su : SurrogateState),
      (buildSurrogates st toName fromName s).toP[p]? = some (PathElem.surrogate su) ∧
      (buildSurrogates st toName fromName s).fromP[p]? = some (PathElem.surrogate su) ∧
      su.surrogateType = "reactivate_phase1" ∧ su.selfName = elemName e ∧
      su.locals = some (s.locals (elemName e))) ∧
    (∃ su2 : SurrogateState,
      su2.surrogateType = "reactivate_phase2" ∧ su2.selfName = elemName e ∧
      su2.resolve = none ∧ su2.views = none ∧
      su2.locals = some (s.locals (elemName e)) ∧ su2.selfShared = true ∧
      (∃ front rear, (buildSurrogates st toName fromName s).toP = front ++ rear ∧
        PathElem.surrogate su2 ∈ rear ∧
        ∀ x ∈ rear, ∃ su', x = PathElem.surrogate su' ∧
          su'.surrogateType = "reactivate_phase2") ∧
      PathElem.surrogate su2 ∉ (buildSurrogates st toName fromName s).fromP) ∧
    ((buildSurrogates st toName fromName s).sys.onEnter (elemName e)
      = Hook.reactivate2Wrap (elemName e)) ∧
    (runEnterHook (Hook.reactivate2Wrap (elemName e)) = [Ev.evStateReactivated (elemName e)]) ∧
    (∀ σ : Sys, (runReactivate2Enter (elemName e) σ).1 = σ.locals (elemName e)) ∧
    (∀ σ : Sys, ((runReactivate2Enter (elemName e) σ).2).inactiveStates
      = σ.inactiveStates.filter (fun x => x != elemName e)) ∧
    (∀ n, (buildSurrogates st toName fromName s).sys.locals n = s.locals n) ∧
    surrCountNamed (elemName e) (buildSurrogates st toName fromName s).toP = 2 := by
  have hmem : (EnterOp.reactivate, e) ∈ st.enter.zip (s.paths toName) := by
    rw [hsplit]
    exact List.mem_append_right _ (List.mem_cons_self _ _)
  have hlen0 : ((s.paths toName).take st.keep).length
      = ((s.paths fromName).take st.keep).length := by
    rw [List.length_take, List.length_take, Nat.min_eq_left hkT, Nat.min_eq_left hkF]
  -- phase 1
  have h1 : ∃ (p : Nat) (su : SurrogateState),
      (buildEnterAcc st toName fromName s).toP[p]? = some (PathElem.surrogate su) ∧
      (buildEnterAcc st toName fromName s).fromP[p]? = some (PathElem.surrogate su) ∧
      su.surrogateType = "reactivate_phase1" ∧ su.selfName = elemName e ∧
      su.locals = some (s.locals (elemName e)) := by
    rw [buildEnterAcc, hsplit]
    exact enterLoop_reactivate_phase1 l2 e l1 _ hpre hlen0
  obtain ⟨p, su, hto, hfrom, hty, hnm, hloc⟩ := h1
  have hc1 : (buildSurrogates st toName fromName s).toP[p]? = some (PathElem.surrogate su) := by
    rw [buildSurrogates_toP, getq_append_left _ _ _ (lt_of_getq hto)]
    exact hto
  have hc2 : (buildSurrogates st toName fromName s).fromP[p]?
      = some (PathElem.surrogate su) := by
    apply buildSurrogates_fromP_getq
    apply exitLoop_fromP_getq
    exact hfrom
  -- phase 2
  have h2 : ∃ su2 ∈ (buildEnterAcc st toName fromName s).reacts,
      su2.surrogateType = "reactivate_phase2" ∧ su2.selfName = elemName e ∧
      su2.resolve = none ∧ su2.views = none ∧
      su2.locals = some (s.locals (elemName e)) ∧ su2.selfShared = true := by
    rw [buildEnterAcc]
    exact enterLoop_reactivate_phase2 _ _ e hmem
  obtain ⟨su2, hsu2mem, h2a, h2b, h2c, h2d, h2e, h2f⟩ := h2
  have hrearTy : ∀ x ∈ (buildEnterAcc st toName fromName s).reacts.map PathElem.surrogate,
      ∃ su', x = PathElem.surrogate su' ∧ su'.surrogateType = "reactivate_phase2" := by
    intro x hx
    rw [List.mem_map] at hx
    obtain ⟨su', hsu', hx2⟩ := hx
    rcases enterLoop_reacts_mem _ _ _ hsu' with hcontra | hph2
    · simp at hcontra
    · exact ⟨su', hx2.symm, hph2.1⟩
  have hnotFrom : PathElem.surrogate su2 ∉ (buildSurrogates st toName fromName s).fromP := by
    intro hx
    rcases buildSurrogates_fromP_mem st toName fromName s _ hx with hx | ⟨nm2, hx⟩
    · rcases exitLoop_fromP_mem _ _ _ hx with hx | ⟨su3, hx3, hty3⟩ | ⟨pr, hpr, hx3⟩
      · rcases enterLoop_fromP_mem _ _ _ hx with hx | ⟨su3, hx3, hty3⟩
        · have hreal : isReal (PathElem.surrogate su2) = true :=
            hfromReal _ (List.take_subset _ _ hx)
          simp [isReal] at hreal
        · have : su2 = su3 := by injection hx3
          rw [this] at h2a
          rw [h2a] at hty3
          exact absurd hty3 (by decide)
      · have : su2 = su3 := by injection hx3
        rw [this] at h2a
        rw [h2a] at hty3
        exact absurd hty3 (by decide)
      · have hprM := (List.of_mem_zip hpr).2
        have hreal : isReal pr.2 = true := hfromReal _ hprM
        rw [← hx3] at hreal
        simp [isReal] at hreal
    · cases hx
  -- the installed wrapper
  have hwrap : (buildSurrogates st toName fromName s).sys.onEnter (elemName e)
      = Hook.reactivate2Wrap (elemName e) := by
    rw [buildSurrogates_sys_onEnter]
    show (buildEnterAcc st toName fromName s).sys.onEnter (elemName e) = _
    rw [buildEnterAcc, hsplit]
    exact enterLoop_phase2_wrapper l2 e hlast l1 _
  -- counting: exactly two surrogates for this state on the to-path
  have hcnt1 : reactNamedCount (elemName e) (l1 ++ (EnterOp.reactivate, e) :: l2) = 1 := by
    rw [reactNamedCount, List.filter_append, List.filter_cons]
    have hl1 : l1.filter
        (fun pr => pr.1 == EnterOp.reactivate && elemName pr.2 == elemName e) = [] := by
      rw [List.filter_eq_nil_iff]
      intro pr hpr
      intro hcontra
      rw [Bool.and_eq_true, beq_iff_eq, beq_iff_eq] at hcontra
      exact hn1 pr hpr (by rw [hcontra.1]; decide) hcontra.2
    have hl2 : l2.filter
        (fun pr => pr.1 == EnterOp.reactivate && elemName pr.2 == elemName e) = [] := by
      rw [List.filter_eq_nil_iff]
      intro pr hpr
      intro hcontra
      rw [Bool.and_eq_true, beq_iff_eq, beq_iff_eq] at hcontra
      exact hlast pr hpr (by rw [hcontra.1]; decide) hcontra.2
    rw [hl1, hl2, if_pos (by simp)]
    simp
  have hzipReal : ∀ pr ∈ st.enter.zip (s.paths toName), isReal pr.2 = true := by
    intro pr hpr
    exact htoReal _ (List.of_mem_zip hpr).2
  have hcount := enterLoop_count (st.enter.zip (s.paths toName))
    ⟨(s.paths toName).take st.keep, (s.paths fromName).take st.keep, [], none,
      { s with inactiveLocals := refreshInactiveLocals s st.inactives }, []⟩
    (elemName e) hzipReal
  have hinit0 : surrCountNamed (elemName e) ((s.paths toName).take st.keep) = 0 :=
    surrCountNamed_real_zero _ _ (fun x hx => htoReal _ (List.take_subset _ _ hx))
  have hcnt : surrCountNamed (elemName e) (buildSurrogates st toName fromName s).toP = 2 := by
    have hc := hcount
    rw [hsplit, hcnt1] at hc
    rw [buildSurrogates_toP, surrCountNamed_append]
    simp only [buildEnterAcc]
    rw [hsplit, hc, hinit0]
    simp [surrCountNamed]
  refine ⟨⟨p, su, hc1, hc2, hty, hnm, hloc⟩,
    ⟨su2, h2a, h2b, h2c, h2d, h2e, h2f,
      ⟨(buildEnterAcc st toName fromName s).toP,
        (buildEnterAcc st toName fromName s).reacts.map PathElem.surrogate,
        buildSurrogates_toP st toName fromName s,
        List.mem_map_of_mem _ hsu2mem, hrearTy⟩, hnotFrom⟩,
    hwrap, rfl, fun σ => rfl, fun σ => rfl, ?_, hcnt⟩
  intro n
  have h := (buildSurrogates_sys st toName fromName s).2.1
  rw [h]

/-! ## C6: orphaned inactive descendants of a reactivated target -/

theorem enterLoop_fromP_len (l : List (EnterOp × PathElem)) (a : EnterAcc) :
    a.fromP.length ≤ (enterLoop l a).fromP.length := by
  induction l generalizing a with
  | nil => exact Nat.le_refl _
  | cons x xs ih =>
    have hstep : a.fromP.length ≤ (enterStep a x).fromP.length := by
      obtain ⟨op, e⟩ := x
      cases op <;> simp [enterStep]
    exact le_trans hstep (ih _)

theorem exitLoop_fromP_len (l : List (ExitOp × PathElem)) (a : ExitAcc) :
    a.fromP.length ≤ (exitLoop l a).fromP.length := by
  induction l generalizing a with
  | nil => exact Nat.le_refl _
  | cons x xs ih =>
    have hstep : a.fromP.length ≤ (exitStep a x).fromP.length := by
      obtain ⟨op, e⟩ := x
      cases op <;> simp [exitStep]
    exact le_trans hstep (ih _)

theorem buildEnterAcc_terminal (st : StickyTransitions) (toName fromName : String) (s : Sys) :
    (buildEnterAcc st toName fromName s).terminal
      = terminalOf (st.enter.zip (s.paths toName)) none := by
  rw [buildEnterAcc]
  exact enterLoop_terminal _ _

/-- Totality of the code-unit comparison. -/
theorem strLt_total : ∀ x y : List Char, x = y ∨ strLt x y = true ∨ strLt y x = true := by
  intro x
  induction x with
  | nil =>
    intro y
    cases y with
    | nil => exact Or.inl rfl
    | cons d ds => exact Or.inr (Or.inl rfl)
  | cons c cs ih =>
    intro y
    cases y with
    | nil => exact Or.inr (Or.inr rfl)
    | cons d ds =>
      by_cases hcd : c = d
      · subst hcd
        rcases ih ds with h | h | h
        · exact Or.inl (by rw [h])
        · refine Or.inr (Or.inl ?_)
          rw [strLt]
          simp [h]
        · refine Or.inr (Or.inr ?_)
          rw [strLt]
          simp [h]
      · rcases Nat.lt_trichotomy c.toNat d.toNat with h | h | h
        · refine Or.inr (Or.inl ?_)
          rw [strLt]
          simp [Nat.blt_eq, h]
        · exact absurd (Char.ext (UInt32.ext h)) hcd
        · refine Or.inr (Or.inr ?_)
          rw [strLt]
          simp [Nat.blt_eq, h]

/-- Totality of the non-strict comparison. -/
theorem strLeB_total (a b : String) : strLeB a b = true ∨ strLeB b a = true := by
  rcases strLt_total a.data b.data with h | h | h
  · have hab : a = b := by
      cases a
      cases b
      simp only at h
      rw [h]
    refine Or.inl ?_
    rw [strLeB, hab]
    simp
  · refine Or.inl ?_
    rw [strLeB, h]
    simp
  · refine Or.inr ?_
    rw [strLeB, h]
    simp

theorem insertAscB_headq (x : String) (l : List String) :
    (insertAscB x l).head? = some x ∨ (insertAscB x l).head? = l.head? := by
  cases l with
  | nil => exact Or.inl rfl
  | cons y ys =>
    rw [insertAscB]
    by_cases h : strLeB x y = true
    · rw [if_pos h]
      exact Or.inl rfl
    · rw [if_neg h]
      exact Or.inr rfl

theorem mem_insertAscB (a x : String) (l : List String) :
    a ∈ insertAscB x l ↔ a = x ∨ a ∈ l := by
  induction l with
  | nil => simp [insertAscB]
  | cons y ys ih =>
    rw [insertAscB]
    by_cases h : strLeB x y = true
    · rw [if_pos h]
      simp
    · rw [if_neg h]
      simp only [List.mem_cons, ih]
      constructor
      · rintro (h2 | h2 | h2)
        · exact Or.inr (Or.inl h2)
        · exact Or.inl h2
        · exact Or.inr (Or.inr h2)
      · rintro (h2 | h2 | h2)
        · exact Or.inr (Or.inl h2)
        · exact Or.inl h2
        · exact Or.inr (Or.inr h2)

theorem mem_sortAscB (a : String) (l : List String) : a ∈ sortAscB l ↔ a ∈ l := by
  induction l with
  | nil => simp [sortAscB]
  | cons x xs ih =>
    rw [sortAscB, mem_insertAscB]
    simp [ih]

/-- Insertion preserves an ascending adjacent chain. -/
theorem chain_insertAscB (x : String) (l : List String)
    (h : List.Chain' (fun a b => strLeB a b = true) l) :
    List.Chain' (fun a b => strLeB a b = true) (insertAscB x l) := by
  induction l with
  | nil => simp [insertAscB]
  | cons y ys ih =>
    rw [insertAscB]
    by_cases hxy : strLeB x y = true
    · rw [if_pos hxy]
      exact List.Chain'.cons hxy h
    · rw [if_neg hxy]
      have hyx : strLeB y x = true := by
        rcases strLeB_total x y with h2 | h2
        · exact absurd h2 hxy
        · exact h2
      have htail : List.Chain' (fun a b => strLeB a b = true) ys := h.tail
      have hrec := ih htail
      rw [List.chain'_cons']
      refine ⟨?_, hrec⟩
      intro b hb
      rcases insertAscB_headq x ys with hh | hh
      · rw [hh] at hb
        have hbx : b = x := by
          simp only [Option.mem_def, Option.some_inj] at hb
          exact hb.symm
        rw [hbx]
        exact hyx
      · rw [hh] at hb
        rcases List.chain'_cons'.mp h with ⟨hy, _⟩
        exact hy b hb

/-- The modelled `sort()` output is an ascending adjacent chain. -/
theorem chain_sortAscB (l : List String) :
    List.Chain' (fun a b => strLeB a b = true) (sortAscB l) := by
  induction l with
  | nil => simp [sortAscB]
  | cons x xs ih => exact chain_insertAscB x _ ih

/-- C6 (amended): when the transition target itself is the terminal
reactivated state, every currently-inactive state whose dotted name starts
with the target's name followed by `"."` is classified `exit` — appended to
the substitute from-path and recorded in the exited accumulator — and these
orphans are appended sorted by name descending; but because the external
engine exits from-path elements leaf-to-root (starting from the end of the
path array), the appended orphans are the first states exited and are
executed among themselves in ascending name order, i.e. shallower dotted
names first, not deeper first. -/
theorem orphan_cascade_descending (st : StickyTransitions) (toName fromName : String)
    (s : Sys)
    (hterm : terminalOf (st.enter.zip (s.paths toName)) none = some toName)
    (hkF : st.keep ≤ (s.paths fromName).length) :
    ((buildSurrogates st toName fromName s).fromP
      = (buildExitAcc st toName fromName s).fromP
        ++ (orphanNames toName s.inactiveStates).map PathElem.real) ∧
    (∀ nm ∈ s.inactiveStates, strStartsWith (toName ++ ".") nm = true →
      nm ∈ (buildSurrogates st toName fromName s).exited) ∧
    List.Chain' (fun a b : String => strLeB b a = true)
      (orphanNames toName s.inactiveStates) ∧
    (∃ tl, engineExitOrder (buildSurrogates st toName fromName s).fromP st.keep
      = ((orphanNames toName s.inactiveStates).reverse.map PathElem.real) ++ tl) ∧
    List.Chain' (fun a b : String => strLeB a b = true)
      (orphanNames toName s.inactiveStates).reverse := by
  have htermB : (buildEnterAcc st toName fromName s).terminal = some toName := by
    rw [buildEnterAcc_terminal]
    exact hterm
  have hxstab := buildExitAcc_sys st toName fromName s
  have horphEq : orphanNames toName (buildExitAcc st toName fromName s).sys.inactiveStates
      = orphanNames toName s.inactiveStates := by rw [hxstab.2.2.2.2.2.1]
  have hfromEq : (buildSurrogates st toName fromName s).fromP
      = (buildExitAcc st toName fromName s).fromP
        ++ (orphanNames toName s.inactiveStates).map PathElem.real := by
    have hb : (buildSurrogates st toName fromName s).fromP
        = (orphanLoop
            (orphanNames toName (buildExitAcc st toName fromName s).sys.inactiveStates)
            (buildExitAcc st toName fromName s)).fromP := by
      simp only [buildSurrogates]
      rw [if_pos htermB]
    rw [hb, orphanLoop_fromP, horphEq]
  have hsortAsc : List.Chain' (fun a b : String => strLeB a b = true)
      (sortAscB (s.inactiveStates.filter (fun nm => strStartsWith (toName ++ ".") nm))) :=
    chain_sortAscB _
  have hkx : st.keep ≤ (buildExitAcc st toName fromName s).fromP.length := by
    have h0 : st.keep ≤ ((s.paths fromName).take st.keep).length := by
      rw [List.length_take, Nat.min_eq_left hkF]
    have h1 : ((s.paths fromName).take st.keep).length
        ≤ (buildEnterAcc st toName fromName s).fromP.length :=
      enterLoop_fromP_len (st.enter.zip (s.paths toName))
        ⟨(s.paths toName).take st.keep, (s.paths fromName).take st.keep, [], none,
          { s with inactiveLocals := refreshInactiveLocals s st.inactives }, []⟩
    have h2 : (buildEnterAcc st toName fromName s).fromP.length
        ≤ (buildExitAcc st toName fromName s).fromP.length :=
      exitLoop_fromP_len (st.exit.zip (s.paths fromName))
        ⟨(buildEnterAcc st toName fromName s).fromP, [],
          (buildEnterAcc st toName fromName s).sys, (buildEnterAcc st toName fromName s).rfns⟩
    exact le_trans h0 (le_trans h1 h2)
  refine ⟨hfromEq, ?_, ?_, ?_, ?_⟩
  · intro nm hnm hprefOk
    have hmemF : nm ∈ s.inactiveStates.filter (fun x => strStartsWith (toName ++ ".") x) :=
      List.mem_filter.mpr ⟨hnm, hprefOk⟩
    have hmemO : nm ∈ orphanNames toName s.inactiveStates := by
      rw [orphanNames, List.mem_reverse, mem_sortAscB]
      exact hmemF
    have hb : (buildSurrogates st toName fromName s).exited
        = (orphanLoop
            (orphanNames toName (buildExitAcc st toName fromName s).sys.inactiveStates)
            (buildExitAcc st toName fromName s)).exited
          ++ orphanNames toName (buildExitAcc st toName fromName s).sys.inactiveStates := by
      simp only [buildSurrogates]
      rw [if_pos htermB]
    rw [hb, horphEq]
    exact List.mem_append_right _ hmemO
  · rw [orphanNames, List.chain'_reverse]
    exact hsortAsc
  · refine ⟨((buildExitAcc st toName fromName s).fromP.drop st.keep).reverse, ?_⟩
    rw [hfromEq, engineExitOrder, List.drop_append_of_le_length hkx, List.reverse_append]
    rw [← List.map_reverse]
  · rw [orphanNames, List.reverse_reverse]
    exact hsortAsc

/-- The system used in the C6 counterexample: the inactive pool holds the two
descendants `A.B` and `A.B.C` of the reactivation target `A`. -/
def sysBase : Sys :=
  { onEnter := fun _ => Hook.missing
    onExit := fun _ => Hook.missing
    paths := fun n => [PathElem.real n]
    locals := fun _ => 0
    localsEntries := fun _ => []
    inactiveLocals := []
    inactiveStates := []
    pendingTransitions := []
    pendingRestore := none
    restores := []
    status := fun _ => "" }

def sysC6 : Sys := { sysBase with inactiveStates := ["A.B", "A.B.C"] }

/-- C6 counterexample: transitioning directly to the inactive-ancestor target
`A` while `A.B` and `A.B.C` are inactive: under the engine's leaf-to-root
exit order, the deeper orphan `A.B.C` is *not* fully exited before `A.B` —
the claim's "deeper first" ordering is false on this input. -/
theorem orphan_exit_order_counterexample :
    ¬ (List.indexOf (PathElem.real "A.B.C")
        (engineExitOrder
          (buildSurrogates ⟨0, [EnterOp.reactivate], [], []⟩ "A" "R" sysC6).fromP 0)
      < List.indexOf (PathElem.real "A.B")
        (engineExitOrder
          (buildSurrogates ⟨0, [EnterOp.reactivate], [], []⟩ "A" "R" sysC6).fromP 0)) := by
  decide

/-! ## C7: the inactivation surrogate's wrapper -/

def sysC7 : Sys :=
  { sysBase with onExit := fun n => if n = "A" then Hook.orig 7 else Hook.missing }

/-- C7 counterexample: the claim says the inactivation surrogate wraps the
real node's onExit so that the real hook fires and then the node is moved
into the inactive registry; but on a state whose original onExit is a real
user hook, the installed wrapper's event trace is only the registry
notification — it never invokes the original hook. -/
theorem inactivate_wrapper_counterexample :
    ¬ (runExitHook (((stateInactivatedSurrogate "A" sysC7).2.1).onExit "A")
        = runExitHook (sysC7.onExit "A") ++ [Ev.evStateInactivated "A"]) := by
  decide

/-- C7 (amended): for every state classified `inactivate`, the built
surrogate shares the real node's `self` and replaces its onExit hook with a
wrapper that only notifies the registry that the node was inactivated (moving
it into the inactive pool) — the original onExit hook is not invoked by the
wrapper; exactly one undo action is registered on the ledger for this
wrapping, it captures the original hook reference, and applying it restores
that reference while leaving every other state's slot untouched. -/
theorem stateInactivatedSurrogate_spec (nm : String) (s : Sys) :
    ((stateInactivatedSurrogate nm s).2.1).onExit nm = Hook.inactivateWrap nm ∧
    runExitHook (Hook.inactivateWrap nm) = [Ev.evStateInactivated nm] ∧
    (∀ σ : Sys, (stateInactivatedEffect nm σ).inactiveStates = σ.inactiveStates ++ [nm]) ∧
    (stateInactivatedSurrogate nm s).2.2 = RestoreFn.setOnExit nm (s.onExit nm) ∧
    (runRestoreFn (stateInactivatedSurrogate nm s).2.2
      ((stateInactivatedSurrogate nm s).2.1)).onExit nm = s.onExit nm ∧
    (∀ m, m ≠ nm → ((stateInactivatedSurrogate nm s).2.1).onExit m = s.onExit m) ∧
    ((stateInactivatedSurrogate nm s).1).surrogateType = "inactivate" ∧
    ((stateInactivatedSurrogate nm s).1).selfShared = true ∧
    (∀ (a : ExitAcc) (e : PathElem),
      (exitStep a (ExitOp.inactivate, e)).rfns
        = a.rfns ++ [RestoreFn.setOnExit (elemName e) (a.sys.onExit (elemName e))]) := by
  refine ⟨?_, rfl, fun σ => rfl, rfl, ?_, ?_, rfl, rfl, fun a e => rfl⟩
  · show (setOnExitH nm (Hook.inactivateWrap nm) s).onExit nm = _
    simp [Function.update_apply]
  · show (setOnExitH nm (s.onExit nm) (setOnExitH nm (Hook.inactivateWrap nm) s)).onExit nm = _
    simp [Function.update_apply]
  · intro m hm
    show (setOnExitH nm (Hook.inactivateWrap nm) s).onExit m = _
    simp [Function.update_apply, hm]

/-! ## C9: the superseding transition's record is never removed -/

def inpT1 : TInput :=
  { toFound := true, toName := "T1", fromName := "R", toParams := 0, fromParams := 0
    st := ⟨0, [], [], []⟩ }

def inpT2 : TInput :=
  { toFound := true, toName := "T2", fromName := "R", toParams := 0, fromParams := 0
    st := ⟨0, [], [], []⟩ }

def c9s1 : Sys := (transitionTo inpT1 sysBase).1

def c9run2 : Sys × Nat := transitionTo inpT2 c9s1

def c9final : Sys :=
  (transitionFailed false c9run2.2 ⟨"transition superseded", 0⟩ c9run2.1).1

/-- C9 evaluated at the failing input: T1 is accepted and left pending, T2 is
accepted (its `idx` is captured as 1 *before* the pending restore of T1
splices the list down to length 0), then T2's own settlement runs its
restore.  The restore completes (its ledger entry is latched done), yet T2's
record is still in `pendingTransitions`: `splice(1, 1)` on the one-element
list removed nothing, contradicting the claim (and the source's own comment
"Remove this transition from the list"). -/
theorem superseding_record_never_removed :
    c9final.pendingTransitions = [recordOf inpT2] ∧
    (c9final.restores[c9run2.2]?).map RestoreState.done = some true := by
  decide

/-! ## Witnesses: each claim theorem evaluated at a concrete input -/

theorem reactivate_two_surrogates_witness :
    surrCountNamed (elemName (PathElem.real "A"))
      (buildSurrogates ⟨0, [EnterOp.reactivate], [], []⟩ "A" "R" sysBase).toP = 2 :=
  (reactivate_two_surrogates ⟨0, [EnterOp.reactivate], [], []⟩ "A" "R" sysBase
    (PathElem.real "A") [] [] rfl
    (fun pr hpr => absurd hpr (List.not_mem_nil _))
    (fun pr hpr => absurd hpr (List.not_mem_nil _))
    (fun pr hpr => absurd hpr (List.not_mem_nil _))
    (by decide) (by decide) (by decide) (by decide)).2.2.2.2.2.2.2

def sysC3 : Sys :=
  { sysBase with
      pendingRestore := some 0
      pendingTransitions := [⟨"X", "R", 0, 0⟩]
      restores := [⟨false, some [PathElem.real "X"], some [PathElem.real "R"], "X", "R", [], 0⟩] }

theorem pending_restore_runs_first_witness :
    ((transitionTo inpT2 sysC3).1).restores[0]?
      = some ⟨true, none, none, "X", "R", [], 0⟩ :=
  (pending_restore_runs_first inpT2 sysC3 0
    ⟨false, some [PathElem.real "X"], some [PathElem.real "R"], "X", "R", [], 0⟩
    rfl rfl rfl).2.1

theorem settle_preserves_outcome_witness :
    (transitionFailed true 0 ⟨"transition aborted", 5⟩ sysBase).2.2 = [] :=
  (settle_preserves_outcome true 0 "A" ⟨"transition aborted", 5⟩ sysBase).2.2.2.2 (by decide)

def inpW5 : TInput :=
  { toFound := true, toName := "A", fromName := "R", toParams := 0, fromParams := 0
    st := ⟨0, [EnterOp.enter], [ExitOp.exitState], []⟩ }

theorem restore_reinstates_originals_witness :
    (runRestoreById (transitionTo inpW5 sysBase).2 (transitionTo inpW5 sysBase).1).paths "A"
      = sysBase.paths "A" :=
  (restore_reinstates_originals inpW5 sysBase rfl rfl (by decide) (by decide)).2.1 "A"

theorem orphan_cascade_descending_witness :
    List.Chain' (fun a b : String => strLeB b a = true)
      (orphanNames "A" sysC6.inactiveStates) :=
  (orphan_cascade_descending ⟨0, [EnterOp.reactivate], [], []⟩ "A" "R" sysC6
    (by decide) (by decide)).2.2.1

theorem stateInactivatedSurrogate_spec_witness :
    ((stateInactivatedSurrogate "A" sysC7).2.1).onExit "B" = sysC7.onExit "B" :=
  (stateInactivatedSurrogate_spec "A" sysC7).2.2.2.2.2.1 "B" (by decide)

def sysC8 : Sys :=
  { sysBase with
      inactiveLocals := [("v@old", 5), ("globals", 1)]
      localsEntries := fun n => if n = "P" then [("v@P", 9)] else [] }

def inpC8 : TInput :=
  { toFound := true, toName := "A", fromName := "R", toParams := 0, fromParams := 0
    st := ⟨0, [], [], ["P"]⟩ }

theorem inactive_locals_refresh_witness :
    objGet (refreshInactiveLocals sysC8 inpC8.st.inactives) "v@old"
      = objGet (populateInactiveViews sysC8 inpC8.st.inactives) "v@old" :=
  (inactive_locals_refresh inpC8 sysC8 "v@old").2.1 (by decide)

def sysC10 : Sys :=
  { sysBase with
      paths := fun n => if n = "F" then [PathElem.real "S"] else [PathElem.real n] }

theorem exited_accumulator_witness :
    elemName (PathElem.real "S")
      ∈ (buildSurrogates ⟨0, [], [ExitOp.inactivate], []⟩ "T" "F" sysC10).exited :=
  (exited_accumulator ⟨0, [], [ExitOp.inactivate], []⟩ "T" "F" sysC10).2
    ExitOp.inactivate (PathElem.real "S") (by decide) (by decide)

end StickyModel
